import Mathlib

/-!
Verification of the priority-ranking / caching / duplicate-URL core of the
Microsoft To Do task manager, as a shallow embedding of the Python sources
(`src/rules/priority_ranker.py`, `find_duplicates.py`, `main.py`) in Lean.
Rational numbers stand in for Python floats, `Option` for absent dict keys
and for caught parse failures, `Except` for raised exceptions.
-/

set_option maxHeartbeats 1000000

namespace TodoSpec

/-! ## Task and analysis views (priority_ranker.py)

The ranker consumes raw dicts; the fields it reads are embedded here.  Date
arithmetic against the run instant (`datetime.now`) is embedded by recording
the two quantities the source actually computes from a parsed date. -/

/-- Outcome of parsing a task's `due_date` relative to the run instant:
`daysUntil` is the integer `(due_date - now).days` and `onToday` is the
boolean `due_date.date() == now.date()` computed in the source. -/
structure DueInfo where
  daysUntil : Int
  onToday : Bool
deriving DecidableEq, Repr

/-- The fields of a task dict read by `PriorityRanker`.  For the two date
fields, `none` means the key is absent or falsy, `some none` means
`dateutil.parser.parse` raised, and `some (some _)` is a successful parse.
`created_at` records the `days_old` value `(now - created).days`. -/
structure TaskView where
  due_date : Option (Option DueInfo)
  created_at : Option (Option Int)
  importance : Option String
deriving DecidableEq, Repr

/-- The fields of an AI analysis dict read by `PriorityRanker`.  `tags`
defaults to `[]` in the source (`analysis.get("tags", [])`), so an absent
key is embedded as the empty list. -/
structure AnalysisView where
  priority_score : Option ℚ
  category : Option String
  urgency_level : Option String
  tags : List String
deriving DecidableEq, Repr

/-- Python `str.lower` restricted to its ASCII action (all strings the
source compares are ASCII). -/
def pyLowerStr (s : String) : String := s.map Char.toLower

/-- `PriorityRanker._score_ai_priority`: `analysis.get("priority_score", 50)`. -/
def score_ai_priority (analysis : AnalysisView) : ℚ :=
  analysis.priority_score.getD 50

/-- `PriorityRanker._score_deadline_urgency`. -/
def score_deadline_urgency (task : TaskView) : ℚ :=
  match task.due_date with
  | none => 20
  | some none => 20
  | some (some d) =>
    if d.daysUntil < 0 then 100
    else if d.daysUntil = 0 then 90
    else if d.daysUntil ≤ 3 then 80
    else if d.daysUntil ≤ 7 then 70
    else if d.daysUntil ≤ 14 then 50
    else if d.daysUntil ≤ 30 then 35
    else 20

/-- `PriorityRanker._score_recency`. -/
def score_recency (task : TaskView) : ℚ :=
  match task.created_at with
  | none => 50
  | some none => 50
  | some (some daysOld) =>
    if daysOld = 0 then 100
    else if daysOld ≤ 3 then 80
    else if daysOld ≤ 7 then 60
    else if daysOld ≤ 30 then 40
    else 20

/-- `PriorityRanker._score_importance`: dict lookup with default 50 on
`task.get("importance", "normal").lower()`. -/
def score_importance (task : TaskView) : ℚ :=
  if pyLowerStr (task.importance.getD "normal") = "high" then 100
  else if pyLowerStr (task.importance.getD "normal") = "normal" then 50
  else if pyLowerStr (task.importance.getD "normal") = "low" then 25
  else 50

/-- The `category_scores` dict of `_score_category` (default 50). -/
def categoryBase (category : String) : ℚ :=
  if category = "urgent" then 95
  else if category = "apply" then 85
  else if category = "contact" then 80
  else if category = "important" then 80
  else if category = "review" then 65
  else if category = "planning" then 60
  else if category = "research" then 55
  else if category = "reading" then 40
  else if category = "watch" then 35
  else if category = "routine" then 30
  else if category = "other" then 50
  else 50

/-- The `urgency_multipliers` dict of `_score_category` (default 1.0). -/
def urgencyMultiplier (urgency : String) : ℚ :=
  if urgency = "critical" then 6/5
  else if urgency = "high" then 11/10
  else if urgency = "medium" then 1
  else if urgency = "low" then 4/5
  else 1

/-- `PriorityRanker._score_category`: `min(base_score * multiplier, 100)`. -/
def score_category (analysis : AnalysisView) : ℚ :=
  min (categoryBase (pyLowerStr (analysis.category.getD "other"))
    * urgencyMultiplier (pyLowerStr (analysis.urgency_level.getD "medium"))) 100

/-- The five ranking-factor weights (`self.weights` of `PriorityRanker`). -/
structure Weights where
  ai_priority : ℚ
  deadline_urgency : ℚ
  recency : ℚ
  importance : ℚ
  category : ℚ
deriving DecidableEq, Repr

/-- `sum(self.weights.values())`. -/
def Weights.total (w : Weights) : ℚ :=
  w.ai_priority + w.deadline_urgency + w.recency + w.importance + w.category

/-- The default weights of `PriorityRanker.__init__`. -/
def defaultWeights : Weights := ⟨2/5, 1/4, 3/20, 1/10, 1/10⟩

/-- The weight validation of `PriorityRanker.__init__`: weights are divided
by their total only when `abs(total - 1.0) > 0.01`. -/
def initWeights (w : Weights) : Weights :=
  if |w.total - 1| > 1/100 then
    ⟨w.ai_priority / w.total, w.deadline_urgency / w.total, w.recency / w.total,
     w.importance / w.total, w.category / w.total⟩
  else w

/-- Python `round(x, 2)` on rationals: scale by 100, round half to even,
scale back. -/
def round2 (x : ℚ) : ℚ :=
  ((if x * 100 - ⌊x * 100⌋ < 1/2 then ⌊x * 100⌋
    else if x * 100 - ⌊x * 100⌋ > 1/2 then ⌊x * 100⌋ + 1
    else if ⌊x * 100⌋ % 2 = 0 then ⌊x * 100⌋
    else ⌊x * 100⌋ + 1 : ℤ) : ℚ) / 100

/-- `PriorityRanker.calculate_priority_score`: the weighted sum of the five
sub-scores, rounded to two decimal places. -/
def calculate_priority_score (w : Weights) (task : TaskView) (analysis : AnalysisView) : ℚ :=
  round2 (score_ai_priority analysis * w.ai_priority
    + score_deadline_urgency task * w.deadline_urgency
    + score_recency task * w.recency
    + score_importance task * w.importance
    + score_category analysis * w.category)

/-! ## Timeframe categorizer (priority_ranker.py) -/

/-- `PriorityRanker._is_due_today` (False on absent or unparseable date). -/
def is_due_today (task : TaskView) : Bool :=
  match task.due_date with
  | some (some d) => d.onToday
  | _ => false

/-- `PriorityRanker._is_due_this_week`: `0 <= days_until <= 7` (False on
absent or unparseable date). -/
def is_due_this_week (task : TaskView) : Bool :=
  match task.due_date with
  | some (some d) => decide (0 ≤ d.daysUntil ∧ d.daysUntil ≤ 7)
  | _ => false

/-- An element of the ranked list: task, analysis and composite score. -/
structure RankedItem where
  task : TaskView
  analysis : AnalysisView
  priority_score : ℚ
deriving DecidableEq, Repr

/-- The four output buckets of `categorize_by_timeframe`. -/
structure Categorized where
  today : List RankedItem
  this_week : List RankedItem
  later : List RankedItem
  waiting : List RankedItem
deriving DecidableEq, Repr

/-- `PriorityRanker.categorize_by_timeframe`: each item is appended to the
first bucket whose condition holds, in the source's if/elif order. -/
def categorize_by_timeframe : List RankedItem → Categorized
  | [] => ⟨[], [], [], []⟩
  | item :: rest =>
    if 80 ≤ item.priority_score ∨ is_due_today item.task then
      { categorize_by_timeframe rest with
        today := item :: (categorize_by_timeframe rest).today }
    else if 60 ≤ item.priority_score ∨ is_due_this_week item.task then
      { categorize_by_timeframe rest with
        this_week := item :: (categorize_by_timeframe rest).this_week }
    else if "waiting" ∈ item.analysis.tags ∨ "blocked" ∈ item.analysis.tags then
      { categorize_by_timeframe rest with
        waiting := item :: (categorize_by_timeframe rest).waiting }
    else
      { categorize_by_timeframe rest with
        later := item :: (categorize_by_timeframe rest).later }

/-- Bucket labels, used to state the categorizer's partition property. -/
inductive Bucket where
  | today
  | this_week
  | waiting
  | later
deriving DecidableEq, Repr

/-- The spec's first-matching-rule assignment (§4.5): score ≥ 80 or due
today, else score ≥ 60 or due within the next 7 days, else waiting/blocked
tag, else later. -/
def bucketOf (item : RankedItem) : Bucket :=
  if 80 ≤ item.priority_score ∨ is_due_today item.task then .today
  else if 60 ≤ item.priority_score ∨ is_due_this_week item.task then .this_week
  else if "waiting" ∈ item.analysis.tags ∨ "blocked" ∈ item.analysis.tags then .waiting
  else .later

/-! ## Duplicate resolver (find_duplicates.py, main.py)

Python compares strings by code points; the sort key is embedded as the
list of code points of the raw `created_at` string. -/

/-- Python `<` on strings (lexicographic on code points), on code-point
lists. -/
def pyStrLt : List Nat → List Nat → Bool
  | [], [] => false
  | [], _ :: _ => true
  | _ :: _, [] => false
  | a :: xs, b :: ys => if a < b then true else if b < a then false else pyStrLt xs ys

/-- Code points of a string. -/
def strKey (s : String) : List Nat := s.data.map Char.toNat

/-- The fields of a parsed task dict used by the duplicate-removal passes. -/
structure DTask where
  id : String
  list_id : String
  title : String
  created_at : Option String
  urls : List String
deriving DecidableEq, Repr

/-- One element of a duplicate group in `find_url_duplicates`:
`{'task': task, 'original_url': url}`. -/
structure DupEntry where
  task : DTask
  original_url : String
deriving DecidableEq, Repr

/-- The sort key `x['task'].get('created_at', '') or ''` of
`delete_duplicates`: the raw string, absent or falsy replaced by `''`. -/
def createdKey (t : DTask) : List Nat := strKey (t.created_at.getD "")

/-- Stable insertion for a descending sort: `x` goes in front of the first
element whose key is `≤` its own.  Since Python's `sorted(..., reverse=True)`
is the unique stable descending ordering, this insertion sort embeds it. -/
def insertDescBy (key : α → List Nat) (x : α) : List α → List α
  | [] => [x]
  | y :: ys => if pyStrLt (key x) (key y) then y :: insertDescBy key x ys else x :: y :: ys

/-- `sorted(items, key=..., reverse=True)` (stable, descending). -/
def sortDescBy (key : α → List Nat) : List α → List α
  | [] => []
  | x :: xs => insertDescBy key x (sortDescBy key xs)

/-- The first element of a list attaining the maximal key (first-seen wins
among ties); the spec's description of the keeper, with string keys. -/
def firstMaxBy (key : α → List Nat) : List α → Option α
  | [] => none
  | x :: xs =>
    match firstMaxBy key xs with
    | none => some x
    | some m => if pyStrLt (key x) (key m) then some m else some x

/-- The keeper of a duplicate group in `delete_duplicates`
(`sorted_items[0]`). -/
def groupKeeper (items : List DupEntry) : Option DupEntry :=
  (sortDescBy (fun e => createdKey e.task) items).head?

/-- The removable members of a duplicate group in `delete_duplicates`
(`sorted_items[1:]`). -/
def groupRemovable (items : List DupEntry) : List DupEntry :=
  (sortDescBy (fun e => createdKey e.task) items).tail

/-- Modelled from the spec (§4.2 adopts parsed-datetime ordering): a
datetime parse of the leading `YYYY-MM-DD` of an ISO timestamp, `none` for
missing/unparseable values, mapped to a comparable stamp. -/
def specCreatedStamp (s : String) : Option Nat :=
  match s.data with
  | y1 :: y2 :: y3 :: y4 :: '-' :: m1 :: m2 :: '-' :: d1 :: d2 :: _ =>
    if [y1, y2, y3, y4, m1, m2, d1, d2].all Char.isDigit then
      some ((((((y1.toNat - 48) * 10 + (y2.toNat - 48)) * 10 + (y3.toNat - 48)) * 10
          + (y4.toNat - 48)) * 10000)
        + ((m1.toNat - 48) * 10 + (m2.toNat - 48)) * 100
        + ((d1.toNat - 48) * 10 + (d2.toNat - 48)))
    else none
  | _ => none

/-- Modelled from the spec: ordering on parse outcomes in which a missing
or unparseable `created_at` sorts as oldest. -/
def ltOptStamp : Option Nat → Option Nat → Bool
  | none, none => false
  | none, some _ => true
  | some _, none => false
  | some a, some b => a < b

/-- Modelled from the spec: the keeper §4.2 asks for — newest parsed
`created_at`, missing/unparseable oldest, first-seen among ties. -/
def specKeeper : List DupEntry → Option DupEntry
  | [] => none
  | x :: xs =>
    match specKeeper xs with
    | none => some x
    | some m =>
      if ltOptStamp (specCreatedStamp (x.task.created_at.getD ""))
          (specCreatedStamp (m.task.created_at.getD "")) then some m
      else some x

/-- A task whose `created_at` is a real ISO timestamp. -/
def cexTaskIso : DTask :=
  ⟨"tIso", "list1", "Task with real date", some "2025-01-01T00:00:00Z", []⟩

/-- A task whose `created_at` does not parse as a datetime. -/
def cexTaskBad : DTask :=
  ⟨"tBad", "list1", "Task with garbage date", some "notadate", []⟩

/-- Duplicate-group entry created on day 1. -/
def dayOneEntry : DupEntry :=
  ⟨⟨"t1", "list1", "Task created day 1", some "2025-03-01T08:00:00Z", []⟩, "u"⟩

/-- Duplicate-group entry created on day 3. -/
def dayThreeEntry : DupEntry :=
  ⟨⟨"t3", "list1", "Task created day 3", some "2025-03-03T08:00:00Z", []⟩, "u"⟩

/-- Duplicate-group entry created on day 2. -/
def dayTwoEntry : DupEntry :=
  ⟨⟨"t2", "list1", "Task created day 2", some "2025-03-02T08:00:00Z", []⟩, "u"⟩

/-! ## Analysis cache

Modelled from the spec: `src/cache/analysis_cache.py` (class
`AnalysisCache`, used by `main.py` Steps 3–4) is not among the source files
of the snapshot, so its `get`/`set` contract is modelled from spec §4.3:
the fingerprint `hash(title, sorted(urls))` is embedded as the pair of the
title and the sorted URL list (hash collisions are not modelled), and the
store `{task_id -> {fingerprint, analysis, timestamp}}` as an association
list keyed by task id (timestamps, which §4.3 declares non-load-bearing,
are omitted). -/

/-- Stable ascending insertion by Python string order (for `sorted(urls)`). -/
def insertAscStr (x : String) : List String → List String
  | [] => [x]
  | y :: ys => if pyStrLt (strKey y) (strKey x) then y :: insertAscStr x ys else x :: y :: ys

/-- Python `sorted` on a list of strings (stable, ascending). -/
def sortedStrings : List String → List String
  | [] => []
  | x :: xs => insertAscStr x (sortedStrings xs)

/-- Modelled from the spec: the content fingerprint `hash(title, sorted(urls))`. -/
def fingerprint (title : String) (urls : List String) : String × List String :=
  (title, sortedStrings urls)

/-- Modelled from the spec: the persisted cache store. -/
structure CacheStore (α : Type) where
  entries : List (String × ((String × List String) × α))
deriving DecidableEq, Repr

/-- Replace the entry for `k` in place, or append a new one (dict upsert). -/
def upsertEntry (k : String) (v : (String × List String) × α) :
    List (String × ((String × List String) × α)) →
    List (String × ((String × List String) × α))
  | [] => [(k, v)]
  | e :: rest => if e.1 = k then (k, v) :: rest else e :: upsertEntry k v rest

/-- Modelled from the spec: `AnalysisCache.get(task_id, title, urls)` —
the stored value only if a live entry for `task_id` exists and its stored
fingerprint equals the freshly computed one; otherwise absent. -/
def cacheGet (store : CacheStore α) (task_id title : String) (urls : List String) : Option α :=
  match store.entries.find? (fun e => e.1 == task_id) with
  | none => none
  | some e => if e.2.1 = fingerprint title urls then some e.2.2 else none

/-- Modelled from the spec: `AnalysisCache.set(task_id, title, urls, result)` —
unconditional upsert recording the newly computed fingerprint. -/
def cacheSet (store : CacheStore α) (task_id title : String) (urls : List String)
    (result : α) : CacheStore α :=
  ⟨upsertEntry task_id (fingerprint title urls, result) store.entries⟩

/-! ## URL normalizer (find_duplicates.py and main.py, identical code)

`normalize_url` lowercases and trims, runs `urllib.parse.urlparse`, strips
a leading `www.`, filters tracking query parameters through
`parse_qs`/`urlencode`, strips trailing slashes from the path and
reassembles.  The `urllib.parse` functions it calls are embedded below at
the code-point level, following CPython's implementation; percent-decoding
and -encoding are modelled at the single-byte (ASCII) level, which matches
CPython for ASCII data (multi-byte UTF-8 sequences are not modelled). -/

deriving instance DecidableEq for Except

/-- ASCII/latin-1 characters Python `str.strip` removes. -/
def isPySpaceChar (c : Char) : Bool :=
  c.toNat = 9 ∨ c.toNat = 10 ∨ c.toNat = 11 ∨ c.toNat = 12 ∨ c.toNat = 13
  ∨ c.toNat = 28 ∨ c.toNat = 29 ∨ c.toNat = 30 ∨ c.toNat = 31 ∨ c.toNat = 32

/-- Python `str.strip()`. -/
def pyStrip (l : List Char) : List Char :=
  ((l.dropWhile isPySpaceChar).reverse.dropWhile isPySpaceChar).reverse

/-- Python `str.lower()` (ASCII action). -/
def pyLower (l : List Char) : List Char := l.map Char.toLower

/-- WHATWG C0-control-or-space, stripped from URL ends by `urlsplit`. -/
def isC0OrSpace (c : Char) : Bool := c.toNat ≤ 32

/-- Tab/CR/LF, removed everywhere in a URL by `urlsplit`. -/
def isUnsafeUrlChar (c : Char) : Bool := c = '\t' ∨ c = '\n' ∨ c = '\r'

/-- The preprocessing of `urllib.parse.urlsplit`. -/
def urlsplitClean (l : List Char) : List Char :=
  (((l.dropWhile isC0OrSpace).reverse.dropWhile isC0OrSpace).reverse).filter
    (fun c => !isUnsafeUrlChar c)

/-- Characters permitted in a URL scheme by `urlsplit`. -/
def isSchemeChar (c : Char) : Bool :=
  c.isAlphanum ∨ c = '+' ∨ c = '-' ∨ c = '.'

/-- Python `str.find` (first index of a matching character). -/
def pyFindIdx (p : Char → Bool) : List Char → Option Nat
  | [] => none
  | c :: rest => if p c then some 0 else (pyFindIdx p rest).map (· + 1)

/-- The scheme split of `urlsplit`: at the first `':'`, provided the prefix
is nonempty, starts with an ASCII letter and has only scheme characters;
the scheme is lowercased (a no-op here since the caller lowercased). -/
def splitScheme (u : List Char) : List Char × List Char :=
  match pyFindIdx (fun c => c = ':') u with
  | none => ([], u)
  | some i =>
    if 0 < i ∧ (u.headD ' ').isAlpha ∧ (u.take i).all isSchemeChar then
      (pyLower (u.take i), u.drop (i + 1))
    else ([], u)

/-- Delimiters ending the network-location part (`_splitnetloc`). -/
def isNetlocEnd (c : Char) : Bool := c = '/' ∨ c = '?' ∨ c = '#'

/-- The `Invalid IPv6 URL` check of `urlsplit`. -/
def bracketMismatch (netloc : List Char) : Bool :=
  (netloc.contains '[' && !netloc.contains ']')
  || (netloc.contains ']' && !netloc.contains '[')

/-- Everything before the first occurrence of `ch` (the whole list if absent). -/
def takeUntilChar (ch : Char) (u : List Char) : List Char :=
  u.takeWhile (fun c => c ≠ ch)

/-- Python `str.split(ch, 1)` when `ch` occurs: the parts before and after
the first occurrence. -/
def splitFirstAt (ch : Char) (u : List Char) : Option (List Char × List Char) :=
  if u.contains ch then
    some (u.takeWhile (fun c => c ≠ ch), (u.dropWhile (fun c => c ≠ ch)).tail)
  else none

/-- The components of `urlsplit`/`urlparse` used by `normalize_url`. -/
structure SplitUrl where
  scheme : List Char
  netloc : List Char
  path : List Char
  query : List Char
deriving DecidableEq, Repr

/-- Python `str.split(ch)`: split on every occurrence (`""` gives `[""]`). -/
def splitOnChar (ch : Char) : List Char → List (List Char)
  | [] => [[]]
  | c :: rest =>
    if c = ch then [] :: splitOnChar ch rest
    else
      match splitOnChar ch rest with
      | [] => [[c]]
      | g :: gs => (c :: g) :: gs

/-- Hexadecimal digit characters (`ipaddress._BaseV6._HEX_DIGITS`). -/
def isHexDigitChar (c : Char) : Bool :=
  ('0' ≤ c ∧ c ≤ '9') ∨ ('a' ≤ c ∧ c ≤ 'f') ∨ ('A' ≤ c ∧ c ≤ 'F')

/-- `ipaddress._BaseV4._parse_octet` as a validity test: nonempty, ASCII
decimal digits only, at most 3 characters, no leading zero except for "0"
itself, value at most 255. -/
def pyOctetValid (o : List Char) : Bool :=
  o ≠ [] ∧ o.all (fun c => '0' ≤ c ∧ c ≤ '9') ∧ o.length ≤ 3
  ∧ (o = ['0'] ∨ o.headD ' ' ≠ '0')
  ∧ o.foldl (fun a c => a * 10 + (c.toNat - 48)) 0 ≤ 255

/-- `ipaddress.IPv4Address.__init__` on a string, as a validity test: no
slash, nonempty, exactly four dot-separated valid octets. -/
def isIPv4Addr (a : List Char) : Bool :=
  !a.contains '/' ∧ a ≠ []
  ∧ (splitOnChar '.' a).length = 4 ∧ (splitOnChar '.' a).all pyOctetValid

/-- Numeric value of a valid IPv4 literal (big-endian octet composition,
`int.from_bytes` of the parsed octets). -/
def ipv4Value (a : List Char) : Nat :=
  (splitOnChar '.' a).foldl (fun acc o =>
    acc * 256 + o.foldl (fun x c => x * 10 + (c.toNat - 48)) 0) 0

/-- `ipaddress._BaseV6._parse_hextet` as a validity test: hex digits only,
at most 4 characters, nonempty (`int` of an empty string raises). -/
def hextetValid (x : List Char) : Bool :=
  x.all isHexDigitChar ∧ x.length ≤ 4 ∧ x ≠ []

/-- The `::` bookkeeping of `ipaddress._BaseV6._ip_int_from_string` after
the IPv4-suffix substitution: at most one interior empty part (the `::`
skip); an empty first or last part only adjacent to that skip; the parts
on both sides of the skip must leave at least one of the 8 hextets
skipped (`parts_skipped < 1` raises); without a skip, exactly 8 parts
with nonempty endpoints; every parsed part a valid hextet. -/
def ipv6PartsValid (parts : List (List Char)) : Bool :=
  if 2 ≤ (((parts.drop 1).dropLast).filter (fun x => x.isEmpty)).length then false
  else
    match List.findIdx? (fun x => x.isEmpty) ((parts.drop 1).dropLast) with
    | none =>
      parts.length = 8 ∧ ¬ (parts.headD []).isEmpty
      ∧ ¬ (parts.getLastD []).isEmpty ∧ parts.all hextetValid
    | some j =>
      (¬ (parts.headD []).isEmpty ∨ j + 1 = 1)
      ∧ (¬ (parts.getLastD []).isEmpty ∨ parts.length - (j + 1) - 2 = 0)
      ∧ (if (parts.headD []).isEmpty then j else j + 1)
          + (if (parts.getLastD []).isEmpty then parts.length - (j + 1) - 2
             else parts.length - (j + 1) - 1) ≤ 7
      ∧ (parts.take (if (parts.headD []).isEmpty then j else j + 1)).all hextetValid
      ∧ (parts.drop (parts.length
          - (if (parts.getLastD []).isEmpty then parts.length - (j + 1) - 2
             else parts.length - (j + 1) - 1))).all hextetValid

/-- `ipaddress._BaseV6._ip_int_from_string` as a validity test: nonempty,
at least 3 colon-separated parts, a dotted last part replaced by the two
hextets of its IPv4 value (invalid IPv4 makes the address invalid), at
most 9 parts, then the `::` bookkeeping. -/
def isIPv6NoScope (a : List Char) : Bool :=
  a ≠ [] ∧
  (3 ≤ (splitOnChar ':' a).length ∧
   (if ((splitOnChar ':' a).getLastD []).contains '.' then
      isIPv4Addr ((splitOnChar ':' a).getLastD [])
      ∧ (splitOnChar ':' a).dropLast.length + 2 ≤ 9
      ∧ ipv6PartsValid ((splitOnChar ':' a).dropLast
          ++ [Nat.toDigits 16 (ipv4Value ((splitOnChar ':' a).getLastD [])
                / 65536 % 65536),
              Nat.toDigits 16 (ipv4Value ((splitOnChar ':' a).getLastD [])
                % 65536)])
    else (splitOnChar ':' a).length ≤ 9 ∧ ipv6PartsValid (splitOnChar ':' a)))

/-- `ipaddress.IPv6Address.__init__` on a string, as a validity test: no
slash; an optional `%scope` suffix (nonempty, containing no further `%`)
split off first; then the address body. -/
def isIPv6Addr (a : List Char) : Bool :=
  !a.contains '/' &&
  (match splitFirstAt '%' a with
   | none => isIPv6NoScope a
   | some pr => !pr.2.isEmpty && !pr.2.contains '%' && isIPv6NoScope pr.1)

/-- The IPvFuture pattern of `_check_bracketed_host`
(`\Av[a-fA-F0-9]+\..+\Z`): `v`, a nonempty run of hex digits, a dot, then
a nonempty remainder free of newlines. -/
def ipvFutureValid (hn : List Char) : Bool :=
  match hn with
  | [] => false
  | c :: rest =>
    c = 'v' ∧ rest.takeWhile isHexDigitChar ≠ []
    ∧ (rest.dropWhile isHexDigitChar).headD ' ' = '.'
    ∧ (rest.dropWhile isHexDigitChar).tail ≠ []
    ∧ ((rest.dropWhile isHexDigitChar).tail).all (fun c => c ≠ '\n')

/-- Python `repr` of a simple string: single-quoted.  Exact for strings
without quotes, backslashes or control characters — all that the theorems
below evaluate. -/
def pyReprSimple (s : List Char) : List Char :=
  Char.ofNat 39 :: s ++ [Char.ofNat 39]

/-- `urllib.parse._check_bracketed_host` (CPython >= 3.11.4): a host
starting with `v` must match the IPvFuture pattern; any other host goes
through `ipaddress.ip_address`, whose detailed parse errors are swallowed —
an IPv4 literal is rejected as such, a valid IPv6 literal is accepted, and
everything else gets the generic `ip_address` ValueError. -/
def checkBracketedHost (hn : List Char) : Except String Unit :=
  if hn.headD ' ' = 'v' then
    if ipvFutureValid hn then .ok () else .error "IPvFuture address is invalid"
  else if isIPv4Addr hn then .error "An IPv4 address cannot be in brackets"
  else if isIPv6Addr hn then .ok ()
  else .error (String.mk (pyReprSimple hn
    ++ " does not appear to be an IPv4 or IPv6 address".data))

/-- Path/query split of the remainder after scheme and netloc removal:
the fragment (everything from the first `#`) is discarded first, then the
remainder is split at its first `?` if any. -/
def pathQueryOf (rest2 : List Char) : List Char × List Char :=
  match splitFirstAt '?' (takeUntilChar '#' rest2) with
  | some pq => pq
  | none => (takeUntilChar '#' rest2, [])

/-- `urllib.parse.urlsplit` restricted to the components `normalize_url`
reads (the fragment is split off and discarded).  Returns `.error` exactly
where CPython 3.11 raises: the one-sided-bracket
`ValueError("Invalid IPv6 URL")`, and — when the authority has both
brackets — `_check_bracketed_host` on the part between the first `[` and
the following `]`.  `_checknetloc` returns immediately for an empty or
all-ASCII authority, so its NFKC branch (non-ASCII authorities only) is
outside this embedding's domain: every theorem below evaluates the
splitter only on inputs whose authority is ASCII. -/
def urlsplitE (url0 : List Char) : Except String SplitUrl :=
  if ((splitScheme (urlsplitClean url0)).2).take 2 = ['/', '/'] then
    if bracketMismatch ((((splitScheme (urlsplitClean url0)).2).drop 2).takeWhile
        (fun c => !isNetlocEnd c)) then
      .error "Invalid IPv6 URL"
    else if (((((splitScheme (urlsplitClean url0)).2).drop 2).takeWhile
          (fun c => !isNetlocEnd c)).contains '[')
        && (((((splitScheme (urlsplitClean url0)).2).drop 2).takeWhile
          (fun c => !isNetlocEnd c)).contains ']') then
      match checkBracketedHost
          (((((((splitScheme (urlsplitClean url0)).2).drop 2).takeWhile
            (fun c => !isNetlocEnd c)).dropWhile (fun c => c ≠ '[')).tail).takeWhile
            (fun c => c ≠ ']')) with
      | .error e => .error e
      | .ok _ =>
        .ok ⟨(splitScheme (urlsplitClean url0)).1,
          ((((splitScheme (urlsplitClean url0)).2).drop 2).takeWhile (fun c => !isNetlocEnd c)),
          (pathQueryOf ((((splitScheme (urlsplitClean url0)).2).drop 2).dropWhile
            (fun c => !isNetlocEnd c))).1,
          (pathQueryOf ((((splitScheme (urlsplitClean url0)).2).drop 2).dropWhile
            (fun c => !isNetlocEnd c))).2⟩
    else
      .ok ⟨(splitScheme (urlsplitClean url0)).1,
        ((((splitScheme (urlsplitClean url0)).2).drop 2).takeWhile (fun c => !isNetlocEnd c)),
        (pathQueryOf ((((splitScheme (urlsplitClean url0)).2).drop 2).dropWhile
          (fun c => !isNetlocEnd c))).1,
        (pathQueryOf ((((splitScheme (urlsplitClean url0)).2).drop 2).dropWhile
          (fun c => !isNetlocEnd c))).2⟩
  else
    .ok ⟨(splitScheme (urlsplitClean url0)).1, [],
      (pathQueryOf ((splitScheme (urlsplitClean url0)).2)).1,
      (pathQueryOf ((splitScheme (urlsplitClean url0)).2)).2⟩

/-- `_splitparams` as applied by `urlparse`: drop a `;params` suffix from
the last path segment. -/
def splitparamsPath (p : List Char) : List Char :=
  if p.contains '/' then
    if ((p.reverse.takeWhile (fun c => c ≠ '/')).reverse).contains ';' then
      (p.reverse.dropWhile (fun c => c ≠ '/')).reverse
        ++ ((p.reverse.takeWhile (fun c => c ≠ '/')).reverse).takeWhile (fun c => c ≠ ';')
    else p
  else
    if p.contains ';' then p.takeWhile (fun c => c ≠ ';') else p

/-- `urllib.parse.urlparse` (scheme, netloc, params-stripped path, query). -/
def urlparseE (u : List Char) : Except String SplitUrl :=
  match urlsplitE u with
  | .error e => .error e
  | .ok r => .ok ⟨r.scheme, r.netloc, splitparamsPath r.path, r.query⟩

/-- Value of a hexadecimal digit. -/
def hexVal (c : Char) : Option Nat :=
  if '0' ≤ c ∧ c ≤ '9' then some (c.toNat - 48)
  else if 'a' ≤ c ∧ c ≤ 'f' then some (c.toNat - 87)
  else if 'A' ≤ c ∧ c ≤ 'F' then some (c.toNat - 55)
  else none

/-- One chunk between `%` signs in `unquote`: decode the two leading hex
digits if present, otherwise restore the `%` verbatim. -/
def unquotePiece (piece : List Char) : List Char :=
  match piece with
  | c1 :: c2 :: rest =>
    match hexVal c1, hexVal c2 with
    | some h1, some h2 => Char.ofNat (16 * h1 + h2) :: rest
    | _, _ => '%' :: piece
  | _ => '%' :: piece

/-- `urllib.parse.unquote` at the byte level, following CPython's
split-on-`%` algorithm (multi-byte UTF-8 recombination is not modelled;
this agrees with CPython on ASCII data). -/
def pyUnquote (l : List Char) : List Char :=
  match splitOnChar '%' l with
  | [] => []
  | first :: pieces => first ++ (pieces.map unquotePiece).flatten

/-- The `.replace('+', ' ')` step of `parse_qsl`. -/
def replacePlus (l : List Char) : List Char :=
  l.map (fun c => if c = '+' then ' ' else c)

/-- `urllib.parse.parse_qsl(qs)` with default arguments: split on `&`,
skip empty chunks, skip chunks without `=`, skip empty values, decode
name and value with `+`-to-space then percent-decoding. -/
def parse_qsl (qs : List Char) : List (List Char × List Char) :=
  (splitOnChar '&' qs).filterMap (fun nv =>
    if nv = [] then none
    else if nv.contains '=' then
      if (nv.dropWhile (fun c => c ≠ '=')).tail = [] then none
      else some (pyUnquote (replacePlus (nv.takeWhile (fun c => c ≠ '='))),
                 pyUnquote (replacePlus ((nv.dropWhile (fun c => c ≠ '=')).tail)))
    else none)

/-- The dict-building loop of `parse_qs`: append the value to an existing
key's list, else add the key at the end (dict insertion order). -/
def addToGroups (acc : List (List Char × List (List Char))) (k : List Char)
    (v : List Char) : List (List Char × List (List Char)) :=
  match acc with
  | [] => [(k, [v])]
  | g :: rest => if g.1 = k then (g.1, g.2 ++ [v]) :: rest else g :: addToGroups rest k v

/-- `urllib.parse.parse_qs(qs)` as an ordered association list. -/
def parse_qs (qs : List Char) : List (List Char × List (List Char)) :=
  (parse_qsl qs).foldl (fun acc kv => addToGroups acc kv.1 kv.2) []

/-- The characters `urllib.parse.quote` never escapes. -/
def isQuoteSafe (c : Char) : Bool :=
  c.isAlphanum ∨ c = '_' ∨ c = '.' ∨ c = '-' ∨ c = '~'

/-- Upper-case hexadecimal digit of a value below 16. -/
def hexDigitUpper (n : Nat) : Char :=
  if n < 10 then Char.ofNat (48 + n) else Char.ofNat (55 + n)

/-- `quote_plus` on one character (single-byte model): safe characters kept,
space to `+`, anything else percent-escaped with uppercase hex. -/
def quotePlusChar (c : Char) : List Char :=
  if isQuoteSafe c then [c]
  else if c = ' ' then ['+']
  else ['%', hexDigitUpper (c.toNat / 16 % 16), hexDigitUpper (c.toNat % 16)]

/-- `urllib.parse.quote_plus` (single-byte model). -/
def quotePlus (l : List Char) : List Char := (l.map quotePlusChar).flatten

/-- Python `ch.join(pieces)`. -/
def joinChar (ch : Char) : List (List Char) → List Char
  | [] => []
  | [x] => x
  | x :: y :: rest => x ++ ch :: joinChar ch (y :: rest)

/-- `urllib.parse.urlencode(groups, doseq=True)`: one `k=v` chunk per value,
keys and values quoted with `quote_plus`, joined by `&`. -/
def urlencode (groups : List (List Char × List (List Char))) : List Char :=
  joinChar '&'
    ((groups.map (fun kv => kv.2.map (fun v => quotePlus kv.1 ++ '=' :: quotePlus v))).flatten)

/-- The fixed tracking-parameter denylist of `normalize_url`. -/
def trackingParams : List (List Char) :=
  (["utm_source", "utm_medium", "utm_campaign", "utm_term", "utm_content",
    "fbclid", "gclid", "ref", "s", "t", "si", "igshid"].map String.data)

/-- The `www.` strip of `normalize_url` (one leading occurrence). -/
def stripWww (netloc : List Char) : List Char :=
  if netloc.take 4 = "www.".data then netloc.drop 4 else netloc

/-- Python `path.rstrip('/')`. -/
def rstripSlash (p : List Char) : List Char :=
  (p.reverse.dropWhile (fun c => c = '/')).reverse

/-- The query filter of `normalize_url`:
`{k: v for k, v in query_params.items() if k.lower() not in tracking_params}`. -/
def filterTracking (groups : List (List Char × List (List Char))) :
    List (List Char × List (List Char)) :=
  groups.filter (fun kv => !trackingParams.contains (pyLower kv.1))

/-- `normalize_url` (identical in `find_duplicates.py` and `main.py`):
lowercase and trim, parse, strip `www.`, drop tracking parameters,
re-encode the surviving query, strip trailing slashes, reassemble as
`scheme://netloc path [? query]`.  `.error` where `urlparse` raises. -/
def normalize_url (url : String) : Except String String :=
  match urlparseE (pyStrip (pyLower url.data)) with
  | .error e => .error e
  | .ok parsed =>
    if (if filterTracking (parse_qs parsed.query) = [] then []
        else urlencode (filterTracking (parse_qs parsed.query))) = [] then
      .ok (String.mk (parsed.scheme ++ "://".data ++ stripWww parsed.netloc
        ++ rstripSlash parsed.path))
    else
      .ok (String.mk (parsed.scheme ++ "://".data ++ stripWww parsed.netloc
        ++ rstripSlash parsed.path
        ++ '?' :: urlencode (filterTracking (parse_qs parsed.query))))

/-! ## Duplicate grouping over normalized URLs (main.py, find_duplicates.py) -/

/-- `url_to_tasks[normalized].append(task)` on an ordered association list
(defaultdict preserving insertion order). -/
def addTaskToGroups (acc : List (String × List DTask)) (url : String) (t : DTask) :
    List (String × List DTask) :=
  match acc with
  | [] => [(url, [t])]
  | g :: rest => if g.1 = url then (g.1, g.2 ++ [t]) :: rest else g :: addTaskToGroups rest url t

/-- The grouping loop of `remove_duplicate_urls` (main.py): every URL of
every task is normalized and the task appended to that URL's group; a
`ValueError` from `urlparse` propagates. -/
def groupByNormalizedUrl (tasks : List DTask) : Except String (List (String × List DTask)) :=
  tasks.foldlM (fun acc t =>
    t.urls.foldlM (fun acc2 u =>
      match normalize_url u with
      | .error e => Except.error e
      | .ok n => Except.ok (addTaskToGroups acc2 n t)) acc) []

/-- The deletion requests `(list_id, id)` issued by `remove_duplicate_urls`:
for each group of size ≥ 2, everything after the first element of the
descending created-at sort. -/
def remove_duplicate_urls_requests (tasks : List DTask) :
    Except String (List (String × String)) :=
  match groupByNormalizedUrl tasks with
  | .error e => Except.error e
  | .ok groups =>
    Except.ok (((groups.filter (fun g => 1 < g.2.length)).map
      (fun g => ((sortDescBy (fun t => createdKey t) g.2).tail).map
        (fun t => (t.list_id, t.id)))).flatten)

/-- A task carrying the same link twice in different spellings that
normalize identically (trailing slash). -/
def selfDupTask : DTask :=
  ⟨"T1", "L1", "Example task", some "2025-01-01T00:00:00Z",
   ["https://x.com/a", "https://x.com/a/"]⟩

/-- `url_to_tasks[normalized].append({'task': task, 'original_url': url})`
of `find_url_duplicates` (find_duplicates.py). -/
def addEntryToGroups (acc : List (String × List DupEntry)) (url : String) (e : DupEntry) :
    List (String × List DupEntry) :=
  match acc with
  | [] => [(url, [e])]
  | g :: rest => if g.1 = url then (g.1, g.2 ++ [e]) :: rest else g :: addEntryToGroups rest url e

/-- `find_url_duplicates` (find_duplicates.py): group entries by normalized
URL, keep groups of size > 1; a `ValueError` from `urlparse` propagates. -/
def find_url_duplicates (tasks : List DTask) :
    Except String (List (String × List DupEntry)) :=
  match tasks.foldlM (fun acc t =>
      t.urls.foldlM (fun acc2 u =>
        match normalize_url u with
        | .error e => Except.error e
        | .ok n => Except.ok (addEntryToGroups acc2 n ⟨t, u⟩)) acc) [] with
  | .error e => Except.error e
  | .ok groups => Except.ok (groups.filter (fun g => 1 < g.2.length))

/-- The deletion requests `(list_id, id)` issued by `delete_duplicates`
(find_duplicates.py) over the duplicate groups: every entry after the
first of the descending created-at sort. -/
def delete_duplicates_requests (groups : List (String × List DupEntry)) :
    List (String × String) :=
  (groups.map (fun g => (groupRemovable g.2).map
    (fun e => (e.task.list_id, e.task.id)))).flatten

/-! ## Well-formedness classes for the idempotence theorem -/

/-- Scheme characters of a well-formed URL: lowercase ASCII letters. -/
def goodSchemeChar (c : Char) : Bool := 'a' ≤ c ∧ c ≤ 'z'

/-- Host characters of a well-formed URL: lowercase letters, digits,
dots and hyphens. -/
def goodHostChar (c : Char) : Bool :=
  ('a' ≤ c ∧ c ≤ 'z') ∨ ('0' ≤ c ∧ c ≤ '9') ∨ c = '.' ∨ c = '-'

/-- Path characters of a well-formed URL: lowercase letters, digits, dot,
hyphen, underscore, tilde and slash (notably no `?`, `#` or `;`). -/
def goodPathChar (c : Char) : Bool :=
  ('a' ≤ c ∧ c ≤ 'z') ∨ ('0' ≤ c ∧ c ≤ '9') ∨ c = '.' ∨ c = '-'
  ∨ c = '_' ∨ c = '~' ∨ c = '/'

/-- Query characters of a well-formed URL: printable ASCII that is stable
under lowercasing, excluding `#` (fragment start), `%` (so raw queries
carry no percent-escapes) and whitespace. -/
def goodQueryChar (c : Char) : Bool :=
  32 < c.toNat ∧ c.toNat < 128 ∧ Char.toLower c = c ∧ c ≠ '#' ∧ c ≠ '%'

/-- Characters `quote_plus` passes through unescaped and `str.lower`
leaves unchanged: lowercase letters, digits, `_`, `.`, `-`. -/
def safeParamChar (c : Char) : Bool :=
  ('a' ≤ c ∧ c ≤ 'z') ∨ ('0' ≤ c ∧ c ≤ '9') ∨ c = '_' ∨ c = '.' ∨ c = '-'

/-- The raw query string `k1=v1&k2=v2&...` built from a parameter list. -/
def rawQueryOfPairs (P : List (List Char × List Char)) : List Char :=
  joinChar '&' (P.map (fun kv => kv.1 ++ '=' :: kv.2))

/-- Grouping of a flat parameter list by key, first-occurrence order
(the dict-building of `parse_qs`, exposed for specification). -/
def groupFlatPairs (pairs : List (List Char × List Char)) :
    List (List Char × List (List Char)) :=
  pairs.foldl (fun acc kv => addToGroups acc kv.1 kv.2) []

/-- The flat `(key, value)` sequence of a grouped parameter list, in
encoding order (one pair per value). -/
def flatPairs (groups : List (List Char × List (List Char))) :
    List (List Char × List Char) :=
  (groups.map (fun g => g.2.map (fun v => (g.1, v)))).flatten

/-! ## Bounds of the sub-scores -/

lemma score_ai_priority_bounds (analysis : AnalysisView)
    (h : ∀ p : ℚ, analysis.priority_score = some p → 0 ≤ p ∧ p ≤ 100) :
    0 ≤ score_ai_priority analysis ∧ score_ai_priority analysis ≤ 100 := by
  unfold score_ai_priority
  cases hp : analysis.priority_score with
  | none => norm_num
  | some p => simpa using h p hp

lemma score_deadline_urgency_bounds (task : TaskView) :
    0 ≤ score_deadline_urgency task ∧ score_deadline_urgency task ≤ 100 := by
  unfold score_deadline_urgency
  rcases h : task.due_date with _ | (_ | d) <;> simp only [h] <;>
    first
      | (split_ifs <;> norm_num)
      | norm_num

lemma score_recency_bounds (task : TaskView) :
    0 ≤ score_recency task ∧ score_recency task ≤ 100 := by
  unfold score_recency
  rcases h : task.created_at with _ | (_ | d) <;> simp only [h] <;>
    first
      | (split_ifs <;> norm_num)
      | norm_num

lemma score_importance_bounds (task : TaskView) :
    0 ≤ score_importance task ∧ score_importance task ≤ 100 := by
  unfold score_importance
  split_ifs <;> norm_num

lemma categoryBase_bounds (c : String) : 0 ≤ categoryBase c ∧ categoryBase c ≤ 95 := by
  unfold categoryBase
  split_ifs <;> norm_num

lemma urgencyMultiplier_bounds (u : String) :
    0 ≤ urgencyMultiplier u ∧ urgencyMultiplier u ≤ 6/5 := by
  unfold urgencyMultiplier
  split_ifs <;> norm_num

lemma score_category_bounds (analysis : AnalysisView) :
    0 ≤ score_category analysis ∧ score_category analysis ≤ 100 := by
  unfold score_category
  constructor
  · apply le_min _ (by norm_num)
    exact mul_nonneg (categoryBase_bounds _).1 (urgencyMultiplier_bounds _).1
  · exact min_le_right _ _

lemma round2_bounds {x : ℚ} (h0 : 0 ≤ x) (h1 : x ≤ 100) :
    0 ≤ round2 x ∧ round2 x ≤ 100 := by
  unfold round2
  have hy0 : (0 : ℚ) ≤ x * 100 := by linarith
  have hy1 : x * 100 ≤ 10000 := by linarith
  have hf0 : (0 : ℤ) ≤ ⌊x * 100⌋ := Int.floor_nonneg.2 hy0
  have hfle : (⌊x * 100⌋ : ℚ) ≤ x * 100 := Int.floor_le _
  constructor
  · have hr : (0 : ℤ) ≤ (if x * 100 - ⌊x * 100⌋ < 1/2 then ⌊x * 100⌋
        else if x * 100 - ⌊x * 100⌋ > 1/2 then ⌊x * 100⌋ + 1
        else if ⌊x * 100⌋ % 2 = 0 then ⌊x * 100⌋
        else ⌊x * 100⌋ + 1) := by
      split_ifs <;> omega
    exact div_nonneg (by exact_mod_cast hr) (by norm_num)
  · have hstep : ∀ r : ℤ, r ≤ 10000 → (r : ℚ) / 100 ≤ 100 := by
      intro r hr
      rw [div_le_iff₀ (by norm_num : (0:ℚ) < 100)]
      calc (r : ℚ) ≤ 10000 := by exact_mod_cast hr
        _ = 100 * 100 := by norm_num
    have hfloor10000 : ⌊x * 100⌋ ≤ 10000 := by
      have : (⌊x * 100⌋ : ℚ) ≤ 10000 := le_trans hfle hy1
      exact_mod_cast this
    split_ifs with h2 h3 h4
    · exact hstep _ hfloor10000
    · -- fractional part strictly above a half, so the floor is at most 9999
      apply hstep
      have : (⌊x * 100⌋ : ℚ) < 10000 := by linarith
      have : ⌊x * 100⌋ < 10000 := by exact_mod_cast this
      omega
    · exact hstep _ hfloor10000
    · -- exact tie: x * 100 = floor + 1/2, so the floor is at most 9999
      apply hstep
      have hhalf : x * 100 - (⌊x * 100⌋ : ℚ) = 1/2 := le_antisymm (not_lt.1 h3) (not_lt.1 h2)
      have : (⌊x * 100⌋ : ℚ) < 10000 := by linarith
      have : ⌊x * 100⌋ < 10000 := by exact_mod_cast this
      omega

lemma initWeights_default : initWeights defaultWeights = defaultWeights := by
  unfold initWeights defaultWeights Weights.total
  norm_num

/-- C1: for every task dict and analysis dict — in particular for every
combination of missing `due_date`, missing `created_at` and missing
`importance` — `calculate_priority_score` (with the ranker's default
weights, which `__init__` keeps unchanged) is a total function returning a
rational in [0, 100], provided `analysis.priority_score`, when present,
lies in [0, 100]. -/
theorem scorer_total_in_range (task : TaskView) (analysis : AnalysisView)
    (h : ∀ p : ℚ, analysis.priority_score = some p → 0 ≤ p ∧ p ≤ 100) :
    0 ≤ calculate_priority_score (initWeights defaultWeights) task analysis
    ∧ calculate_priority_score (initWeights defaultWeights) task analysis ≤ 100 := by
  rw [initWeights_default]
  unfold calculate_priority_score defaultWeights
  obtain ⟨ha0, ha1⟩ := score_ai_priority_bounds analysis h
  obtain ⟨hd0, hd1⟩ := score_deadline_urgency_bounds task
  obtain ⟨hr0, hr1⟩ := score_recency_bounds task
  obtain ⟨hi0, hi1⟩ := score_importance_bounds task
  obtain ⟨hc0, hc1⟩ := score_category_bounds analysis
  exact round2_bounds (by dsimp only; linarith) (by dsimp only; linarith)

/-- C1 witness: the scorer evaluated on fully-absent fields (the all-default
branch)—the hypothesis is vacuous because `priority_score` is absent. -/
theorem scorer_total_in_range_witness :
    0 ≤ calculate_priority_score (initWeights defaultWeights)
          ⟨none, none, none⟩ ⟨none, none, none, []⟩
    ∧ calculate_priority_score (initWeights defaultWeights)
          ⟨none, none, none⟩ ⟨none, none, none, []⟩ ≤ 100 :=
  scorer_total_in_range ⟨none, none, none⟩ ⟨none, none, none, []⟩
    (by intro p hp; simp at hp)

/-- C2: the `deadline_urgency` sub-score realizes exactly the spec's
first-match table — no due date 20, unparseable 20 (the caught-exception
branch), overdue 100, due today 90, within 3 days 80, within 7 days 70,
within 14 days 50, within 30 days 35, later 20 — and consequently an
overdue task scores strictly higher than one due in 30 days. -/
theorem deadline_urgency_table :
    (∀ t : TaskView, t.due_date = none → score_deadline_urgency t = 20)
  ∧ (∀ t : TaskView, t.due_date = some none → score_deadline_urgency t = 20)
  ∧ (∀ t : TaskView, ∀ d : DueInfo, t.due_date = some (some d) →
      (d.daysUntil < 0 → score_deadline_urgency t = 100)
    ∧ (d.daysUntil = 0 → score_deadline_urgency t = 90)
    ∧ (1 ≤ d.daysUntil → d.daysUntil ≤ 3 → score_deadline_urgency t = 80)
    ∧ (4 ≤ d.daysUntil → d.daysUntil ≤ 7 → score_deadline_urgency t = 70)
    ∧ (8 ≤ d.daysUntil → d.daysUntil ≤ 14 → score_deadline_urgency t = 50)
    ∧ (15 ≤ d.daysUntil → d.daysUntil ≤ 30 → score_deadline_urgency t = 35)
    ∧ (31 ≤ d.daysUntil → score_deadline_urgency t = 20))
  ∧ ∀ t1 t2 : TaskView, ∀ d1 d2 : DueInfo,
      t1.due_date = some (some d1) → d1.daysUntil < 0 →
      t2.due_date = some (some d2) → d2.daysUntil = 30 →
      score_deadline_urgency t2 < score_deadline_urgency t1 := by
  refine ⟨?_, ?_, ?_, ?_⟩
  · intro t h
    simp [score_deadline_urgency, h]
  · intro t h
    simp [score_deadline_urgency, h]
  · intro t d h
    unfold score_deadline_urgency
    simp only [h]
    refine ⟨?_, ?_, ?_, ?_, ?_, ?_, ?_⟩ <;>
      · intros
        split_ifs <;> first | rfl | omega
  · intro t1 t2 d1 d2 h1 hd1 h2 hd2
    unfold score_deadline_urgency
    simp only [h1, h2]
    split_ifs <;> first | (exfalso; omega) | norm_num

/-- C2 witness: an overdue task (one day past due) scores 100 and a task
due in 30 days scores 35, with the former strictly higher. -/
theorem deadline_urgency_table_witness :
    score_deadline_urgency ⟨some (some ⟨-1, false⟩), none, none⟩ = 100
    ∧ score_deadline_urgency ⟨some (some ⟨30, false⟩), none, none⟩ = 35
    ∧ score_deadline_urgency ⟨some (some ⟨30, false⟩), none, none⟩
        < score_deadline_urgency ⟨some (some ⟨-1, false⟩), none, none⟩ :=
  ⟨((deadline_urgency_table.2.2.1 ⟨some (some ⟨-1, false⟩), none, none⟩
      ⟨-1, false⟩ rfl).1 (by norm_num)),
   ((deadline_urgency_table.2.2.1 ⟨some (some ⟨30, false⟩), none, none⟩
      ⟨30, false⟩ rfl).2.2.2.2.2.1 (by norm_num) (by norm_num)),
   (deadline_urgency_table.2.2.2 ⟨some (some ⟨-1, false⟩), none, none⟩
      ⟨some (some ⟨30, false⟩), none, none⟩ ⟨-1, false⟩ ⟨30, false⟩
      rfl (by norm_num) rfl rfl)⟩

/-- C3 counterexample: weights summing to 1.005 are inside the `0.01`
tolerance of `PriorityRanker.__init__`, so the code leaves them unchanged
and the composite score is computed with weights that do not sum to 1,
contradicting the claim that every weight mapping not summing to 1.0 is
normalized before use. -/
theorem initWeights_tolerance_counterexample :
    initWeights ⟨81/200, 1/4, 3/20, 1/10, 1/10⟩ = ⟨81/200, 1/4, 3/20, 1/10, 1/10⟩
    ∧ Weights.total ⟨81/200, 1/4, 3/20, 1/10, 1/10⟩ ≠ 1 := by
  constructor
  · have hc : ¬ (|Weights.total ⟨81/200, 1/4, 3/20, 1/10, 1/10⟩ - 1| > 1/100) := by
      unfold Weights.total
      rw [not_lt]
      norm_num [abs_le]
    unfold initWeights
    rw [if_neg hc]
  · unfold Weights.total
    norm_num

/-- C3 amended: when the configured weights' total differs from 1.0 by
more than the source's 0.01 tolerance (and is nonzero, as division by a
zero total would raise), `__init__` divides each weight by the total, and
the weights subsequently used sum exactly to 1; within the tolerance the
weights are used as-is. -/
theorem initWeights_normalizes_outside_tolerance (w : Weights)
    (hne : w.total ≠ 0) (hout : |w.total - 1| > 1/100) :
    (initWeights w).total = 1 := by
  unfold initWeights
  rw [if_pos hout]
  show w.ai_priority / w.total + w.deadline_urgency / w.total + w.recency / w.total
      + w.importance / w.total + w.category / w.total = 1
  field_simp
  unfold Weights.total
  ring

/-- C3 amended witness: weights summing to 2 get normalized to total 1. -/
theorem initWeights_normalizes_outside_tolerance_witness :
    (initWeights ⟨1, 1/2, 1/4, 1/8, 1/8⟩).total = 1 :=
  initWeights_normalizes_outside_tolerance ⟨1, 1/2, 1/4, 1/8, 1/8⟩
    (by unfold Weights.total; norm_num) (by unfold Weights.total; norm_num)

/-- C4: `categorize_by_timeframe` realizes the spec's first-matching-rule
assignment (`bucketOf`, evaluated in the fixed order today → this_week →
waiting → later, with unparseable due dates behaving as no due date via
`is_due_today`/`is_due_this_week` returning false), each bucket being the
subsequence of items assigned to it; hence every item lands in exactly one
bucket and the four buckets together are a permutation of the input. -/
theorem categorize_partition (l : List RankedItem) :
    (categorize_by_timeframe l).today = l.filter (fun i => bucketOf i = Bucket.today)
  ∧ (categorize_by_timeframe l).this_week = l.filter (fun i => bucketOf i = Bucket.this_week)
  ∧ (categorize_by_timeframe l).waiting = l.filter (fun i => bucketOf i = Bucket.waiting)
  ∧ (categorize_by_timeframe l).later = l.filter (fun i => bucketOf i = Bucket.later)
  ∧ ∀ i : RankedItem,
      (categorize_by_timeframe l).today.count i
      + (categorize_by_timeframe l).this_week.count i
      + (categorize_by_timeframe l).waiting.count i
      + (categorize_by_timeframe l).later.count i = l.count i := by
  induction l with
  | nil => simp [categorize_by_timeframe]
  | cons item rest ih =>
    obtain ⟨iht, ihw, ihwa, ihl, ihc⟩ := ih
    by_cases h1 : 80 ≤ item.priority_score ∨ is_due_today item.task
    · have hb : bucketOf item = .today := by unfold bucketOf; rw [if_pos h1]
      refine ⟨?_, ?_, ?_, ?_, ?_⟩
      · simp [categorize_by_timeframe, h1, List.filter_cons, hb, iht]
      · simp [categorize_by_timeframe, h1, List.filter_cons, hb, ihw]
      · simp [categorize_by_timeframe, h1, List.filter_cons, hb, ihwa]
      · simp [categorize_by_timeframe, h1, List.filter_cons, hb, ihl]
      · intro i
        have hc := ihc i
        rw [iht, ihw, ihwa, ihl] at hc
        simp [categorize_by_timeframe, h1, List.count_cons, iht, ihw, ihwa, ihl]
        split_ifs <;> omega
    · by_cases h2 : 60 ≤ item.priority_score ∨ is_due_this_week item.task
      · have hb : bucketOf item = .this_week := by
          unfold bucketOf
          rw [if_neg h1, if_pos h2]
        refine ⟨?_, ?_, ?_, ?_, ?_⟩
        · simp [categorize_by_timeframe, h1, h2, List.filter_cons, hb, iht]
        · simp [categorize_by_timeframe, h1, h2, List.filter_cons, hb, ihw]
        · simp [categorize_by_timeframe, h1, h2, List.filter_cons, hb, ihwa]
        · simp [categorize_by_timeframe, h1, h2, List.filter_cons, hb, ihl]
        · intro i
          have hc := ihc i
          rw [iht, ihw, ihwa, ihl] at hc
          simp [categorize_by_timeframe, h1, h2, List.count_cons, iht, ihw, ihwa, ihl]
          split_ifs <;> omega
      · by_cases h3 : "waiting" ∈ item.analysis.tags ∨ "blocked" ∈ item.analysis.tags
        · have hb : bucketOf item = .waiting := by
            unfold bucketOf
            rw [if_neg h1, if_neg h2, if_pos h3]
          refine ⟨?_, ?_, ?_, ?_, ?_⟩
          · simp [categorize_by_timeframe, h1, h2, h3, List.filter_cons, hb, iht]
          · simp [categorize_by_timeframe, h1, h2, h3, List.filter_cons, hb, ihw]
          · simp [categorize_by_timeframe, h1, h2, h3, List.filter_cons, hb, ihwa]
          · simp [categorize_by_timeframe, h1, h2, h3, List.filter_cons, hb, ihl]
          · intro i
            have hc := ihc i
            rw [iht, ihw, ihwa, ihl] at hc
            simp [categorize_by_timeframe, h1, h2, h3, List.count_cons,
              iht, ihw, ihwa, ihl]
            split_ifs <;> omega
        · have hb : bucketOf item = .later := by
            unfold bucketOf
            rw [if_neg h1, if_neg h2, if_neg h3]
          refine ⟨?_, ?_, ?_, ?_, ?_⟩
          · simp [categorize_by_timeframe, h1, h2, h3, List.filter_cons, hb, iht]
          · simp [categorize_by_timeframe, h1, h2, h3, List.filter_cons, hb, ihw]
          · simp [categorize_by_timeframe, h1, h2, h3, List.filter_cons, hb, ihwa]
          · simp [categorize_by_timeframe, h1, h2, h3, List.filter_cons, hb, ihl]
          · intro i
            have hc := ihc i
            rw [iht, ihw, ihwa, ihl] at hc
            simp [categorize_by_timeframe, h1, h2, h3, List.count_cons,
              iht, ihw, ihwa, ihl]
            split_ifs <;> omega

/-! ## Order lemmas for the duplicate resolver's sort -/

lemma pyStrLt_irrefl (l : List Nat) : pyStrLt l l = false := by
  induction l with
  | nil => rfl
  | cons a xs ih => simp [pyStrLt, ih]

lemma pyStrLt_cons_true_iff {a b : Nat} {xs ys : List Nat} :
    pyStrLt (a :: xs) (b :: ys) = true ↔ a < b ∨ (a = b ∧ pyStrLt xs ys = true) := by
  simp only [pyStrLt]
  split_ifs with h1 h2
  · simp [h1]
  · constructor
    · intro hf
      exact absurd hf (by simp)
    · rintro (h | ⟨rfl, _⟩) <;> omega
  · constructor
    · intro h
      exact Or.inr ⟨by omega, h⟩
    · rintro (h | ⟨_, h⟩)
      · omega
      · exact h

lemma pyStrLt_cons_false_iff {a b : Nat} {xs ys : List Nat} :
    pyStrLt (a :: xs) (b :: ys) = false ↔ b < a ∨ (a = b ∧ pyStrLt xs ys = false) := by
  simp only [pyStrLt]
  split_ifs with h1 h2
  · constructor
    · intro hf
      exact absurd hf (by simp)
    · rintro (h | ⟨rfl, _⟩) <;> omega
  · simp [h2]
  · constructor
    · intro h
      exact Or.inr ⟨by omega, h⟩
    · rintro (h | ⟨_, h⟩)
      · omega
      · exact h

lemma pyStrLt_trans : ∀ {x y z : List Nat},
    pyStrLt x y = true → pyStrLt y z = true → pyStrLt x z = true := by
  intro x
  induction x with
  | nil =>
    intro y z h1 h2
    cases z with
    | nil =>
      cases y with
      | nil => simp [pyStrLt] at h1
      | cons b ys => simp [pyStrLt] at h2
    | cons c zs => simp [pyStrLt]
  | cons a xs ih =>
    intro y z h1 h2
    cases y with
    | nil => simp [pyStrLt] at h1
    | cons b ys =>
      cases z with
      | nil => simp [pyStrLt] at h2
      | cons c zs =>
        rw [pyStrLt_cons_true_iff] at h1 h2 ⊢
        rcases h1 with h1 | ⟨rfl, h1⟩
        · rcases h2 with h2 | ⟨rfl, h2⟩
          · exact Or.inl (by omega)
          · exact Or.inl h1
        · rcases h2 with h2 | ⟨rfl, h2⟩
          · exact Or.inl h2
          · exact Or.inr ⟨rfl, ih h1 h2⟩

lemma pyStrLt_eq_of_not_lt : ∀ {x y : List Nat},
    pyStrLt x y = false → pyStrLt y x = false → x = y := by
  intro x
  induction x with
  | nil =>
    intro y h1 _
    cases y with
    | nil => rfl
    | cons b ys => simp [pyStrLt] at h1
  | cons a xs ih =>
    intro y h1 h2
    cases y with
    | nil => simp [pyStrLt] at h2
    | cons b ys =>
      rw [pyStrLt_cons_false_iff] at h1 h2
      rcases h1 with h1 | ⟨rfl, h1⟩
      · rcases h2 with h2 | ⟨h2, _⟩ <;> omega
      · rcases h2 with h2 | ⟨_, h2⟩
        · omega
        · rw [ih h1 h2]

lemma pyStrLt_asymm {x y : List Nat} (h : pyStrLt x y = true) : pyStrLt y x = false := by
  by_contra hc
  have h2 : pyStrLt y x = true := by
    revert hc
    cases pyStrLt y x <;> simp
  have h3 := pyStrLt_trans h h2
  rw [pyStrLt_irrefl] at h3
  exact absurd h3 (by simp)

lemma firstMaxBy_none_iff (key : α → List Nat) (l : List α) :
    firstMaxBy key l = none ↔ l = [] := by
  cases l with
  | nil => simp [firstMaxBy]
  | cons x xs =>
    cases hm : firstMaxBy key xs with
    | none => simp [firstMaxBy, hm]
    | some m =>
      simp only [firstMaxBy, hm]
      split_ifs <;> simp

lemma firstMaxBy_mem {key : α → List Nat} {l : List α} {m : α}
    (h : firstMaxBy key l = some m) : m ∈ l := by
  induction l with
  | nil => simp [firstMaxBy] at h
  | cons a xs ih =>
    cases hfm : firstMaxBy key xs with
    | none =>
      simp only [firstMaxBy, hfm, Option.some.injEq] at h
      simp [h]
    | some m0 =>
      simp only [firstMaxBy, hfm] at h
      split_ifs at h
      · simp only [Option.some.injEq] at h
        subst h
        exact List.mem_cons_of_mem _ (ih hfm)
      · simp only [Option.some.injEq] at h
        simp [h]

lemma firstMaxBy_maximal {key : α → List Nat} {l : List α} {m : α}
    (h : firstMaxBy key l = some m) :
    ∀ x ∈ l, pyStrLt (key m) (key x) = false := by
  induction l generalizing m with
  | nil => simp [firstMaxBy] at h
  | cons a xs ih =>
    intro x hx
    cases hfm : firstMaxBy key xs with
    | none =>
      simp only [firstMaxBy, hfm, Option.some.injEq] at h
      subst h
      have hxe : xs = [] := (firstMaxBy_none_iff key xs).1 hfm
      subst hxe
      simp at hx
      subst hx
      exact pyStrLt_irrefl _
    | some m0 =>
      simp only [firstMaxBy, hfm] at h
      rcases List.mem_cons.1 hx with rfl | hxs
      · split_ifs at h with hlt
        · simp only [Option.some.injEq] at h
          subst h
          exact pyStrLt_asymm hlt
        · simp only [Option.some.injEq] at h
          subst h
          exact pyStrLt_irrefl _
      · split_ifs at h with hlt
        · simp only [Option.some.injEq] at h
          subst h
          exact ih hfm x hxs
        · simp only [Option.some.injEq] at h
          subst h
          have hm0 := ih hfm x hxs
          have hlt' : pyStrLt (key a) (key m0) = false := by
            revert hlt
            cases pyStrLt (key a) (key m0) <;> simp
          by_contra hc
          have hax : pyStrLt (key a) (key x) = true := by
            revert hc
            cases pyStrLt (key a) (key x) <;> simp
          cases hxm : pyStrLt (key x) (key m0) with
          | true =>
            have h3 := pyStrLt_trans hax hxm
            rw [hlt'] at h3
            exact absurd h3 (by simp)
          | false =>
            have heq : key x = key m0 := pyStrLt_eq_of_not_lt hxm hm0
            rw [heq] at hax
            rw [hlt'] at hax
            exact absurd hax (by simp)

lemma firstMaxBy_first {key : α → List Nat} {l : List α} {m : α}
    (h : firstMaxBy key l = some m) :
    ∃ l1 l2, l = l1 ++ m :: l2 ∧ ∀ x ∈ l1, pyStrLt (key x) (key m) = true := by
  induction l with
  | nil => simp [firstMaxBy] at h
  | cons a xs ih =>
    cases hfm : firstMaxBy key xs with
    | none =>
      simp only [firstMaxBy, hfm, Option.some.injEq] at h
      subst h
      exact ⟨[], xs, rfl, by simp⟩
    | some m0 =>
      simp only [firstMaxBy, hfm] at h
      split_ifs at h with hlt
      · simp only [Option.some.injEq] at h
        subst h
        obtain ⟨l1, l2, heq, hall⟩ := ih hfm
        refine ⟨a :: l1, l2, by simp [heq], ?_⟩
        intro x hx
        rcases List.mem_cons.1 hx with rfl | hx1
        · exact hlt
        · exact hall x hx1
      · simp only [Option.some.injEq] at h
        subst h
        exact ⟨[], xs, rfl, by simp⟩

lemma insertDescBy_perm (key : α → List Nat) (x : α) (l : List α) :
    List.Perm (insertDescBy key x l) (x :: l) := by
  induction l with
  | nil => exact List.Perm.refl _
  | cons y ys ih =>
    simp only [insertDescBy]
    split_ifs with h
    · exact (ih.cons y).trans (List.Perm.swap x y ys)
    · exact List.Perm.refl _

lemma sortDescBy_perm (key : α → List Nat) (l : List α) :
    List.Perm (sortDescBy key l) l := by
  induction l with
  | nil => exact List.Perm.refl _
  | cons x xs ih => exact (insertDescBy_perm key x _).trans (ih.cons x)

lemma sortDescBy_head (key : α → List Nat) (l : List α) :
    (sortDescBy key l).head? = firstMaxBy key l := by
  induction l with
  | nil => rfl
  | cons x xs ih =>
    simp only [sortDescBy, firstMaxBy]
    cases hs : sortDescBy key xs with
    | nil =>
      rw [hs] at ih
      simp only [List.head?] at ih
      rw [← ih]
      simp [insertDescBy]
    | cons y ys =>
      rw [hs] at ih
      simp only [List.head?] at ih
      rw [← ih]
      simp only [insertDescBy]
      split_ifs <;> simp

/-- C5 counterexample: the code sorts duplicate groups by the raw
`created_at` string, so a task whose `created_at` is the unparseable string
"notadate" beats a task with the real ISO timestamp "2025-01-01T00:00:00Z"
(because `'n' > '2'` by code point) and becomes the keeper, while the
claim's parsed-datetime ordering with unparseable-sorts-oldest would make
the ISO-dated task the keeper. -/
theorem duplicate_keeper_lexical_counterexample :
    groupKeeper [⟨cexTaskIso, "u"⟩, ⟨cexTaskBad, "u"⟩] = some ⟨cexTaskBad, "u"⟩
  ∧ specKeeper [⟨cexTaskIso, "u"⟩, ⟨cexTaskBad, "u"⟩] = some ⟨cexTaskIso, "u"⟩
  ∧ specCreatedStamp "notadate" = none
  ∧ groupRemovable [⟨cexTaskIso, "u"⟩, ⟨cexTaskBad, "u"⟩] = [⟨cexTaskIso, "u"⟩]
  ∧ cexTaskBad ≠ cexTaskIso := by decide

/-- C5 amended: for every nonempty duplicate group, the keeper chosen by
`delete_duplicates` is the first-seen entry whose raw `created_at` string
(missing treated as `""`, which sorts oldest) is maximal in Python's
code-point string order — not parsed-datetime order — every other member is
removable, ties go to the first-seen entry, and keeper plus removables are
a permutation of the group.  For ISO-formatted timestamps (e.g. day1, day3,
day2) string order and datetime order agree, so the day3 task is keeper. -/
theorem delete_duplicates_keeper_lexical (items : List DupEntry) (h : items ≠ []) :
    ∃ k : DupEntry,
      groupKeeper items = some k
    ∧ firstMaxBy (fun e => createdKey e.task) items = some k
    ∧ k ∈ items
    ∧ (∀ e ∈ items, pyStrLt (createdKey k.task) (createdKey e.task) = false)
    ∧ (∃ l1 l2, items = l1 ++ k :: l2
        ∧ ∀ e ∈ l1, pyStrLt (createdKey e.task) (createdKey k.task) = true)
    ∧ List.Perm (k :: groupRemovable items) items := by
  obtain ⟨k, hk⟩ : ∃ k, firstMaxBy (fun e => createdKey e.task) items = some k := by
    cases hk : firstMaxBy (fun e => createdKey e.task) items with
    | none => exact absurd ((firstMaxBy_none_iff _ _).1 hk) h
    | some k => exact ⟨k, rfl⟩
  have hhead : (sortDescBy (fun e => createdKey e.task) items).head? = some k := by
    rw [sortDescBy_head]
    exact hk
  have hgk : groupKeeper items = some k := hhead
  refine ⟨k, hgk, hk, firstMaxBy_mem hk, firstMaxBy_maximal hk, firstMaxBy_first hk, ?_⟩
  have hperm := sortDescBy_perm (fun e => createdKey e.task) items
  cases hs : sortDescBy (fun e => createdKey e.task) items with
  | nil =>
    rw [hs] at hhead
    exact absurd hhead (by simp)
  | cons y ys =>
    rw [hs] at hhead hperm
    simp only [List.head?, Option.some.injEq] at hhead
    have hrem : groupRemovable items = ys := by
      unfold groupRemovable
      rw [hs]
      rfl
    rw [hrem, ← hhead]
    exact hperm

/-- C5 witness: the amended theorem applied to the spec's day1/day3/day2
group, plus the concrete evaluation showing the day3 entry is the keeper
and the day1/day2 entries are the removables. -/
theorem delete_duplicates_keeper_lexical_witness :
    (∃ k : DupEntry,
      groupKeeper [dayOneEntry, dayThreeEntry, dayTwoEntry] = some k
    ∧ firstMaxBy (fun e => createdKey e.task) [dayOneEntry, dayThreeEntry, dayTwoEntry] = some k
    ∧ k ∈ [dayOneEntry, dayThreeEntry, dayTwoEntry]
    ∧ (∀ e ∈ [dayOneEntry, dayThreeEntry, dayTwoEntry],
        pyStrLt (createdKey k.task) (createdKey e.task) = false)
    ∧ (∃ l1 l2, [dayOneEntry, dayThreeEntry, dayTwoEntry] = l1 ++ k :: l2
        ∧ ∀ e ∈ l1, pyStrLt (createdKey e.task) (createdKey k.task) = true)
    ∧ List.Perm (k :: groupRemovable [dayOneEntry, dayThreeEntry, dayTwoEntry])
        [dayOneEntry, dayThreeEntry, dayTwoEntry])
    ∧ groupKeeper [dayOneEntry, dayThreeEntry, dayTwoEntry] = some dayThreeEntry
    ∧ groupRemovable [dayOneEntry, dayThreeEntry, dayTwoEntry] = [dayTwoEntry, dayOneEntry] :=
  ⟨delete_duplicates_keeper_lexical [dayOneEntry, dayThreeEntry, dayTwoEntry] (by simp),
   by decide, by decide⟩

/-! ## Cache theorems -/

lemma find?_upsertEntry (k : String) (v : (String × List String) × α)
    (l : List (String × ((String × List String) × α))) :
    (upsertEntry k v l).find? (fun e => e.1 == k) = some (k, v) := by
  induction l with
  | nil => simp [upsertEntry]
  | cons e rest ih =>
    simp only [upsertEntry]
    split_ifs with h
    · simp
    · rw [List.find?_cons_of_neg _ (by simp [h])]
      exact ih

/-- C6 (spec-modelled): `cache.get(task_id, title, urls)` returns the stored
result exactly when a live entry for `task_id` exists whose stored
fingerprint equals `hash(title, sorted(urls))`; any title change, URL-set
change or absent entry yields absent; and the spec §8 scenario holds:
after `set("t1", "Title A", ["u1"], r)`, `get` with the same arguments
returns `r` while an edited title or a different URL list yields absent. -/
theorem cache_get_iff_fingerprint :
    (∀ (α : Type) (store : CacheStore α) (tid ttl : String) (urls : List String) (v : α),
      cacheGet store tid ttl urls = some v ↔
        store.entries.find? (fun e => e.1 == tid)
          = some (tid, fingerprint ttl urls, v))
  ∧ (∀ (α : Type) (store : CacheStore α) (tid ttl : String) (urls : List String) (r : α),
      cacheGet (cacheSet store tid ttl urls r) tid ttl urls = some r)
  ∧ cacheGet (cacheSet (⟨[]⟩ : CacheStore Nat) "t1" "Title A" ["u1"] 7)
      "t1" "Title A (edited)" ["u1"] = none
  ∧ cacheGet (cacheSet (⟨[]⟩ : CacheStore Nat) "t1" "Title A" ["u1"] 7)
      "t1" "Title A" ["u2"] = none
  ∧ cacheGet (cacheSet (⟨[]⟩ : CacheStore Nat) "t1" "Title A" ["u1"] 7)
      "t1" "Title A" ["u1"] = some 7 := by
  refine ⟨?_, ?_, by decide, by decide, by decide⟩
  · intro α store tid ttl urls v
    unfold cacheGet
    cases hf : store.entries.find? (fun e => e.1 == tid) with
    | none => simp
    | some e =>
      have hpe := List.find?_some hf
      obtain ⟨e1, e2, e3⟩ := e
      simp only [beq_iff_eq] at hpe
      subst hpe
      dsimp only
      split_ifs with hfp
      · simp only at hfp
        simp [hfp]
      · simp only at hfp
        simp [hfp]
  · intro α store tid ttl urls r
    show (match (upsertEntry tid (fingerprint ttl urls, r) store.entries).find?
        (fun e => e.1 == tid) with
      | none => none
      | some e => if e.2.1 = fingerprint ttl urls then some e.2.2 else none) = some r
    rw [find?_upsertEntry]
    simp

/-! ## URL normalizer theorems -/

/-- C7 counterexample: `normalize_url` is not idempotent.  On the
scheme-less input "hello" it returns "://hello"; applied again it prepends
another "://", so `normalize(normalize u) ≠ normalize u`. -/
theorem normalize_url_not_idempotent_counterexample :
    normalize_url "hello" = .ok "://hello"
  ∧ normalize_url "://hello" = .ok "://://hello"
  ∧ normalize_url "://hello" ≠ .ok "://hello" := by decide

/-- C8 counterexample: `normalize_url` propagates `urlparse`'s
`ValueError("Invalid IPv6 URL")` — there is no try/except in the function —
so on "http://[x" (a `[` without `]` in the authority) it raises instead of
returning a best-effort lowercased/trimmed string. -/
theorem normalize_url_raises_counterexample :
    normalize_url "http://[x" = .error "Invalid IPv6 URL" := by decide

/-- C9 counterexample: the denylist is the five specific `utm_` names plus
seven others, not the `utm_*` wildcard — `utm_id` survives normalization —
and surviving parameters are re-encoded grouped by name (parse_qs
aggregates repeated names), not in their original relative order:
`b=1&a=2&b=3` re-encodes as `b=1&b=3&a=2`. -/
theorem tracking_removal_counterexample :
    normalize_url "https://x.com/a?utm_id=5" = .ok "https://x.com/a?utm_id=5"
  ∧ normalize_url "https://x.com/a?utm_id=5" ≠ normalize_url "https://x.com/a"
  ∧ normalize_url "https://x.com/a?b=1&a=2&b=3" = .ok "https://x.com/a?b=1&b=3&a=2" := by
  decide

/-- C10: a single task whose URL list holds two spellings of the same link
("https://x.com/a" and "https://x.com/a/", equal after normalization) forms
a group of size 2 containing the task twice; the group passes the `> 1`
filter, the task is selected as keeper AND marked removable, and the
deletion request for the task's only copy is issued — by both
`find_url_duplicates`/`delete_duplicates` and `remove_duplicate_urls`. -/
theorem self_duplicate_only_copy_deleted :
    find_url_duplicates [selfDupTask]
      = .ok [("https://x.com/a",
          [⟨selfDupTask, "https://x.com/a"⟩, ⟨selfDupTask, "https://x.com/a/"⟩])]
  ∧ 1 < [(⟨selfDupTask, "https://x.com/a"⟩ : DupEntry),
         ⟨selfDupTask, "https://x.com/a/"⟩].length
  ∧ groupKeeper [⟨selfDupTask, "https://x.com/a"⟩, ⟨selfDupTask, "https://x.com/a/"⟩]
      = some ⟨selfDupTask, "https://x.com/a"⟩
  ∧ delete_duplicates_requests [("https://x.com/a",
      [⟨selfDupTask, "https://x.com/a"⟩, ⟨selfDupTask, "https://x.com/a/"⟩])]
      = [(selfDupTask.list_id, selfDupTask.id)]
  ∧ remove_duplicate_urls_requests [selfDupTask]
      = .ok [(selfDupTask.list_id, selfDupTask.id)] := by decide

/-! ## List and character lemmas for the normalizer proofs -/

lemma dropWhile_eq_self_of_all {p : Char → Bool} {l : List Char}
    (h : ∀ c ∈ l, p c = false) : l.dropWhile p = l := by
  cases l with
  | nil => rfl
  | cons c rest => simp [List.dropWhile_cons, h c (List.mem_cons_self c rest)]

lemma takeWhile_eq_self_of_all {p : Char → Bool} {l : List Char}
    (h : ∀ c ∈ l, p c = true) : l.takeWhile p = l := by
  induction l with
  | nil => rfl
  | cons c rest ih =>
    simp [List.takeWhile_cons, h c (by simp), ih (fun d hd => h d (by simp [hd]))]

lemma takeWhile_append_of_all {p : Char → Bool} {a : List Char} (b : List Char)
    (h : ∀ c ∈ a, p c = true) : (a ++ b).takeWhile p = a ++ b.takeWhile p := by
  induction a with
  | nil => simp
  | cons c rest ih =>
    simp [List.takeWhile_cons, h c (by simp), ih (fun d hd => h d (by simp [hd]))]

lemma dropWhile_append_of_all {p : Char → Bool} {a : List Char} (b : List Char)
    (h : ∀ c ∈ a, p c = true) : (a ++ b).dropWhile p = b.dropWhile p := by
  induction a with
  | nil => simp
  | cons c rest ih =>
    simp [List.dropWhile_cons, h c (by simp), ih (fun d hd => h d (by simp [hd]))]

lemma dropWhile_idem {p : Char → Bool} (l : List Char) :
    (l.dropWhile p).dropWhile p = l.dropWhile p := by
  induction l with
  | nil => rfl
  | cons c rest ih =>
    by_cases h : p c
    · simp [List.dropWhile_cons, h, ih]
    · simp [List.dropWhile_cons, h]

lemma pyStrip_eq_self {l : List Char} (h : ∀ c ∈ l, 32 < c.toNat) :
    pyStrip l = l := by
  have hs : ∀ c ∈ l, isPySpaceChar c = false := by
    intro c hc
    have := h c hc
    unfold isPySpaceChar
    simp only [decide_eq_false_iff_not]
    omega
  unfold pyStrip
  rw [dropWhile_eq_self_of_all hs,
    dropWhile_eq_self_of_all (fun c hc => hs c (List.mem_reverse.1 hc)),
    List.reverse_reverse]

lemma urlsplitClean_eq_self {l : List Char} (h : ∀ c ∈ l, 32 < c.toNat) :
    urlsplitClean l = l := by
  have hs : ∀ c ∈ l, isC0OrSpace c = false := by
    intro c hc
    have := h c hc
    unfold isC0OrSpace
    simp only [decide_eq_false_iff_not]
    omega
  unfold urlsplitClean
  rw [dropWhile_eq_self_of_all hs,
    dropWhile_eq_self_of_all (fun c hc => hs c (List.mem_reverse.1 hc)),
    List.reverse_reverse]
  apply List.filter_eq_self.mpr
  intro c hc
  have h32 := h c hc
  unfold isUnsafeUrlChar
  simp only [Bool.not_eq_true', decide_eq_false_iff_not]
  rintro (rfl | rfl | rfl) <;> simp at h32

lemma pyLower_append (a b : List Char) :
    pyLower (a ++ b) = pyLower a ++ pyLower b := List.map_append _ a b

lemma pyLower_eq_self_of_all {l : List Char} (h : ∀ c ∈ l, Char.toLower c = c) :
    pyLower l = l := by
  unfold pyLower
  rw [List.map_congr_left h]
  exact List.map_id' l

lemma splitOnChar_ne_nil (ch : Char) (l : List Char) : splitOnChar ch l ≠ [] := by
  cases l with
  | nil => simp [splitOnChar]
  | cons c rest =>
    unfold splitOnChar
    split_ifs <;> cases h : splitOnChar ch rest <;> simp

lemma splitOnChar_append_no (ch : Char) {a : List Char} (b : List Char)
    (ha : ∀ c ∈ a, c ≠ ch) {g : List Char} {gs : List (List Char)}
    (hb : splitOnChar ch b = g :: gs) :
    splitOnChar ch (a ++ b) = (a ++ g) :: gs := by
  induction a with
  | nil => simpa using hb
  | cons c rest ih =>
    have hc : c ≠ ch := ha c (by simp)
    simp only [List.cons_append]
    unfold splitOnChar
    rw [if_neg hc, ih (fun d hd => ha d (by simp [hd]))]

lemma splitOnChar_of_no (ch : Char) {a : List Char} (ha : ∀ c ∈ a, c ≠ ch) :
    splitOnChar ch a = [a] := by
  have := splitOnChar_append_no ch [] ha rfl
  simpa using this

lemma splitOnChar_join (ch : Char) (pieces : List (List Char))
    (hne : pieces ≠ []) (hno : ∀ p ∈ pieces, ∀ c ∈ p, c ≠ ch) :
    splitOnChar ch (joinChar ch pieces) = pieces := by
  induction pieces with
  | nil => exact absurd rfl hne
  | cons x rest ih =>
    cases rest with
    | nil =>
      show splitOnChar ch x = [x]
      exact splitOnChar_of_no ch (hno x (by simp))
    | cons y rest2 =>
      show splitOnChar ch (x ++ ch :: joinChar ch (y :: rest2)) = x :: y :: rest2
      have hrest := ih (by simp) (fun p hp c hc => hno p (by simp [hp]) c hc)
      have hchcons : splitOnChar ch (ch :: joinChar ch (y :: rest2))
          = [] :: y :: rest2 := by
        unfold splitOnChar
        rw [if_pos rfl, hrest]
      have := splitOnChar_append_no ch (ch :: joinChar ch (y :: rest2))
        (hno x (by simp)) hchcons
      simpa using this

lemma mem_splitOnChar_mem (ch : Char) {l : List Char} {g : List Char}
    (hg : g ∈ splitOnChar ch l) {c : Char} (hc : c ∈ g) : c ∈ l := by
  induction l generalizing g with
  | nil =>
    simp [splitOnChar] at hg
    subst hg
    simp at hc
  | cons d rest ih =>
    unfold splitOnChar at hg
    split_ifs at hg with hd
    · rcases List.mem_cons.1 hg with rfl | hg2
      · simp at hc
      · exact List.mem_cons_of_mem _ (ih hg2 hc)
    · cases hsp : splitOnChar ch rest with
      | nil => exact absurd hsp (splitOnChar_ne_nil ch rest)
      | cons g0 gs0 =>
        rw [hsp] at hg
        rcases List.mem_cons.1 hg with rfl | hg2
        · rcases List.mem_cons.1 hc with rfl | hc2
          · simp
          · exact List.mem_cons_of_mem _ (ih (by simp [hsp]) hc2)
        · exact List.mem_cons_of_mem _ (ih (by simp [hsp, hg2]) hc)

/-! ## Percent-decoding and -encoding lemmas -/

lemma pyUnquote_of_no_escape {l : List Char} (h : ∀ c ∈ l, c ≠ '%') :
    pyUnquote l = l := by
  unfold pyUnquote
  rw [splitOnChar_of_no '%' h]
  simp

lemma pyUnquote_cons_ne {c : Char} (l : List Char) (hc : c ≠ '%') :
    pyUnquote (c :: l) = c :: pyUnquote l := by
  unfold pyUnquote
  cases hsp : splitOnChar '%' l with
  | nil => exact absurd hsp (splitOnChar_ne_nil _ _)
  | cons g gs =>
    have h2 : splitOnChar '%' (c :: l) = (c :: g) :: gs := by
      have := splitOnChar_append_no '%' (a := [c]) l (by simpa using hc) hsp
      simpa using this
    rw [h2]
    simp

lemma pyUnquote_escape {h1 h2 : Char} {v1 v2 : Nat} (l : List Char)
    (hh1 : hexVal h1 = some v1) (hh2 : hexVal h2 = some v2)
    (hn1 : h1 ≠ '%') (hn2 : h2 ≠ '%') :
    pyUnquote ('%' :: h1 :: h2 :: l) = Char.ofNat (16 * v1 + v2) :: pyUnquote l := by
  unfold pyUnquote
  cases hsp : splitOnChar '%' l with
  | nil => exact absurd hsp (splitOnChar_ne_nil _ _)
  | cons g gs =>
    have hsp2 : splitOnChar '%' (h1 :: h2 :: l) = (h1 :: h2 :: g) :: gs := by
      have := splitOnChar_append_no '%' (a := [h1, h2]) l
        (by intro d hd
            rcases List.mem_cons.1 hd with rfl | hd2
            · exact hn1
            · simp only [List.mem_singleton] at hd2
              exact hd2 ▸ hn2) hsp
      simpa using this
    have hsp3 : splitOnChar '%' ('%' :: h1 :: h2 :: l) = [] :: (h1 :: h2 :: g) :: gs := by
      unfold splitOnChar
      rw [if_pos rfl, hsp2]
    rw [hsp3]
    simp [unquotePiece, hh1, hh2]

/-- The lowered upper-hex digits: distinct from the query metacharacters,
printable, and decoded back by `hexVal`. -/
lemma hexDigit_facts : ∀ n : Nat, n < 16 →
    Char.toLower (hexDigitUpper n) ≠ '%' ∧ Char.toLower (hexDigitUpper n) ≠ '&'
    ∧ Char.toLower (hexDigitUpper n) ≠ '=' ∧ Char.toLower (hexDigitUpper n) ≠ '#'
    ∧ Char.toLower (hexDigitUpper n) ≠ '+' ∧ Char.toLower (hexDigitUpper n) ≠ '?'
    ∧ 32 < (Char.toLower (hexDigitUpper n)).toNat
    ∧ hexVal (Char.toLower (hexDigitUpper n)) = some n := by decide

lemma quoteSafe_facts {c : Char} (h : isQuoteSafe c = true) :
    c ≠ '&' ∧ c ≠ '=' ∧ c ≠ '#' ∧ c ≠ '%' ∧ c ≠ '+' ∧ c ≠ '?' ∧ 32 < c.toNat := by
  unfold isQuoteSafe Char.isAlphanum Char.isAlpha Char.isUpper Char.isLower
    Char.isDigit at h
  simp only [Bool.or_eq_true, Bool.and_eq_true, decide_eq_true_eq] at h
  have hval : (65 ≤ c.toNat ∧ c.toNat ≤ 90) ∨ (97 ≤ c.toNat ∧ c.toNat ≤ 122)
      ∨ (48 ≤ c.toNat ∧ c.toNat ≤ 57) ∨ c = '_' ∨ c = '.' ∨ c = '-' ∨ c = '~' := by
    rcases h with ((⟨a, b⟩ | ⟨a, b⟩) | ⟨a, b⟩) | h | h | h | h
    · exact Or.inl ⟨a, b⟩
    · exact Or.inr (Or.inl ⟨a, b⟩)
    · exact Or.inr (Or.inr (Or.inl ⟨a, b⟩))
    · exact Or.inr (Or.inr (Or.inr (Or.inl h)))
    · exact Or.inr (Or.inr (Or.inr (Or.inr (Or.inl h))))
    · exact Or.inr (Or.inr (Or.inr (Or.inr (Or.inr (Or.inl h)))))
    · exact Or.inr (Or.inr (Or.inr (Or.inr (Or.inr (Or.inr h)))))
  have hne : ∀ t : Char, c.toNat ≠ t.toNat → c ≠ t := by
    intro t hnt heq
    exact hnt (heq ▸ rfl)
  rcases hval with ⟨a, b⟩ | ⟨a, b⟩ | ⟨a, b⟩ | rfl | rfl | rfl | rfl <;>
    refine ⟨?_, ?_, ?_, ?_, ?_, ?_, ?_⟩ <;>
      first
        | decide
        | (apply hne <;> simp <;> omega)
        | omega

lemma quotePlus_cons (c : Char) (l : List Char) :
    quotePlus (c :: l) = quotePlusChar c ++ quotePlus l := by
  simp [quotePlus]

lemma quotePlusChar_ne_nil (c : Char) : quotePlusChar c ≠ [] := by
  unfold quotePlusChar
  split_ifs <;> simp

lemma quotePlus_eq_nil_iff (l : List Char) : quotePlus l = [] ↔ l = [] := by
  cases l with
  | nil => simp [quotePlus]
  | cons c rest =>
    simp only [quotePlus_cons]
    constructor
    · intro h
      exact absurd (List.append_eq_nil.mp h).1 (quotePlusChar_ne_nil c)
    · intro h
      cases h

lemma replacePlus_append (a b : List Char) :
    replacePlus (a ++ b) = replacePlus a ++ replacePlus b := List.map_append _ a b

/-- Decoding inverts lowered `quote_plus` on ASCII, lowercase-stable data. -/
lemma decode_pyLower_quotePlus {x : List Char}
    (hx : ∀ c ∈ x, c.toNat < 128 ∧ Char.toLower c = c) :
    pyUnquote (replacePlus (pyLower (quotePlus x))) = x := by
  induction x with
  | nil => rfl
  | cons c rest ih =>
    obtain ⟨hlt, hlow⟩ := hx c (by simp)
    have ihr := ih (fun d hd => hx d (by simp [hd]))
    rw [quotePlus_cons, pyLower_append, replacePlus_append]
    by_cases hsafe : isQuoteSafe c = true
    · obtain ⟨_, _, _, hpc, hplus, _, _⟩ := quoteSafe_facts hsafe
      have h1 : quotePlusChar c = [c] := by
        unfold quotePlusChar
        rw [if_pos hsafe]
      have h2 : replacePlus (pyLower [c]) = [c] := by
        simp [pyLower, replacePlus, hlow, hplus]
      rw [h1, h2]
      rw [show ([c] ++ replacePlus (pyLower (quotePlus rest)))
          = c :: replacePlus (pyLower (quotePlus rest)) from rfl]
      rw [pyUnquote_cons_ne _ hpc, ihr]
    · by_cases hspace : c = ' '
      · subst hspace
        have h1 : quotePlusChar ' ' = ['+'] := by decide
        have h2 : replacePlus (pyLower ['+']) = [' '] := by decide
        rw [h1, h2]
        rw [show ([' '] ++ replacePlus (pyLower (quotePlus rest)))
            = ' ' :: replacePlus (pyLower (quotePlus rest)) from rfl]
        rw [pyUnquote_cons_ne _ (by decide), ihr]
      · have h1 : quotePlusChar c
            = ['%', hexDigitUpper (c.toNat / 16 % 16), hexDigitUpper (c.toNat % 16)] := by
          unfold quotePlusChar
          rw [if_neg hsafe, if_neg hspace]
        obtain ⟨f1p, _, _, _, f1plus, _, _, f1hex⟩ :=
          hexDigit_facts (c.toNat / 16 % 16) (by omega)
        obtain ⟨f2p, _, _, _, f2plus, _, _, f2hex⟩ :=
          hexDigit_facts (c.toNat % 16) (by omega)
        have h2 : replacePlus (pyLower (quotePlusChar c))
            = '%' :: Char.toLower (hexDigitUpper (c.toNat / 16 % 16))
              :: Char.toLower (hexDigitUpper (c.toNat % 16)) :: [] := by
          rw [h1]
          unfold pyLower replacePlus
          simp only [List.map_cons, List.map_nil]
          rw [show Char.toLower '%' = '%' from by decide]
          rw [if_neg (by decide : ¬ ('%' : Char) = '+'),
            if_neg f1plus, if_neg f2plus]
        rw [h2]
        rw [show (('%' :: Char.toLower (hexDigitUpper (c.toNat / 16 % 16))
              :: Char.toLower (hexDigitUpper (c.toNat % 16)) :: [])
            ++ replacePlus (pyLower (quotePlus rest)))
          = '%' :: Char.toLower (hexDigitUpper (c.toNat / 16 % 16))
              :: Char.toLower (hexDigitUpper (c.toNat % 16))
              :: replacePlus (pyLower (quotePlus rest)) from rfl]
        rw [pyUnquote_escape _ f1hex f2hex f1p f2p, ihr]
        have hval : 16 * (c.toNat / 16 % 16) + c.toNat % 16 = c.toNat := by omega
        rw [hval, Char.ofNat_toNat]

/-- Characters of lowered `quote_plus` output avoid the query
metacharacters and are printable. -/
lemma mem_pyLower_quotePlus {x : List Char}
    (hx : ∀ c ∈ x, c.toNat < 128 ∧ Char.toLower c = c)
    {d : Char} (hd : d ∈ pyLower (quotePlus x)) :
    d ≠ '&' ∧ d ≠ '=' ∧ d ≠ '#' ∧ 32 < d.toNat := by
  induction x with
  | nil => simp [quotePlus, pyLower] at hd
  | cons c rest ih =>
    rw [quotePlus_cons, pyLower_append] at hd
    rcases List.mem_append.1 hd with hd1 | hd2
    · obtain ⟨hlt, hlow⟩ := hx c (by simp)
      unfold quotePlusChar at hd1
      split_ifs at hd1 with hsafe hspace
      · simp only [pyLower, List.map_cons, List.map_nil, hlow, List.mem_singleton] at hd1
        subst hd1
        obtain ⟨f1, f2, f3, _, _, _, f7⟩ := quoteSafe_facts hsafe
        exact ⟨f1, f2, f3, f7⟩
      · simp only [pyLower, List.map_cons, List.map_nil, List.mem_singleton] at hd1
        subst hd1
        decide
      · simp only [pyLower, List.map_cons, List.map_nil, List.mem_cons,
          List.mem_singleton, List.not_mem_nil, or_false] at hd1
        rcases hd1 with rfl | rfl | rfl
        · decide
        · obtain ⟨_, g2, g3, g4, _, _, g7, _⟩ :=
            hexDigit_facts (c.toNat / 16 % 16) (by omega)
          exact ⟨g2, g3, g4, g7⟩
        · obtain ⟨_, g2, g3, g4, _, _, g7, _⟩ :=
            hexDigit_facts (c.toNat % 16) (by omega)
          exact ⟨g2, g3, g4, g7⟩
    · exact ih (fun e he => hx e (by simp [he])) hd2

lemma pyLower_joinChar (ch : Char) (ps : List (List Char)) :
    pyLower (joinChar ch ps) = joinChar (Char.toLower ch) (ps.map pyLower) := by
  induction ps with
  | nil => rfl
  | cons x rest ih =>
    cases rest with
    | nil => rfl
    | cons y rest2 =>
      show pyLower (x ++ ch :: joinChar ch (y :: rest2))
        = pyLower x ++ Char.toLower ch :: joinChar (Char.toLower ch)
            (pyLower y :: rest2.map pyLower)
      rw [pyLower_append]
      congr 1
      rw [show pyLower (ch :: joinChar ch (y :: rest2))
          = Char.toLower ch :: pyLower (joinChar ch (y :: rest2)) from rfl, ih]
      rfl

lemma filterMap_id_of_mem {α : Type} {f : α → Option α} {l : List α}
    (h : ∀ x ∈ l, f x = some x) : l.filterMap f = l := by
  induction l with
  | nil => rfl
  | cons x rest ih =>
    rw [List.filterMap_cons, h x (by simp), ih (fun y hy => h y (by simp [hy]))]

/-- `parse_qsl` inverts the lowered `urlencode`-style rendering of a flat
parameter list with ASCII lowercase-stable keys/values and nonempty
values. -/
lemma parse_qsl_join_encoded (flat : List (List Char × List Char))
    (hflat : ∀ kv ∈ flat, (∀ c ∈ kv.1, c.toNat < 128 ∧ Char.toLower c = c)
      ∧ (∀ c ∈ kv.2, c.toNat < 128 ∧ Char.toLower c = c) ∧ kv.2 ≠ []) :
    parse_qsl (pyLower (joinChar '&'
      (flat.map (fun kv => quotePlus kv.1 ++ '=' :: quotePlus kv.2)))) = flat := by
  cases hf : flat with
  | nil => rfl
  | cons kv0 rest0 =>
  rw [← hf]
  have hlowjoin : pyLower (joinChar '&'
      (flat.map (fun kv => quotePlus kv.1 ++ '=' :: quotePlus kv.2)))
      = joinChar '&' (flat.map
          (fun kv => pyLower (quotePlus kv.1) ++ '=' :: pyLower (quotePlus kv.2))) := by
    rw [pyLower_joinChar, show Char.toLower '&' = '&' from by decide, List.map_map]
    congr 1
    apply List.map_congr_left
    intro kv _
    show pyLower (quotePlus kv.1 ++ '=' :: quotePlus kv.2) = _
    rw [pyLower_append]
    rw [show pyLower ('=' :: quotePlus kv.2)
        = Char.toLower '=' :: pyLower (quotePlus kv.2) from rfl]
    rw [show Char.toLower '=' = '=' from by decide]
  rw [hlowjoin]
  unfold parse_qsl
  rw [splitOnChar_join '&' _ (by simp [hf]) ?hno]
  case hno =>
    intro piece hp c hc
    rcases List.mem_map.1 hp with ⟨kv, hkv, rfl⟩
    obtain ⟨hk, hv, _⟩ := hflat kv hkv
    rcases List.mem_append.1 hc with hc1 | hc2
    · exact (mem_pyLower_quotePlus hk hc1).1
    · rcases List.mem_cons.1 hc2 with rfl | hc3
      · decide
      · exact (mem_pyLower_quotePlus hv hc3).1
  rw [List.filterMap_map]
  apply filterMap_id_of_mem
  intro kv hkv
  obtain ⟨hk, hv, hvne⟩ := hflat kv hkv
  have hkeq : (pyLower (quotePlus kv.1) ++ '=' :: pyLower (quotePlus kv.2)).takeWhile
      (fun c => c ≠ '=') = pyLower (quotePlus kv.1) := by
    rw [takeWhile_append_of_all _ (fun c hc => by
      simp only [ne_eq, decide_eq_true_eq]
      exact (mem_pyLower_quotePlus hk hc).2.1)]
    simp [List.takeWhile_cons]
  have hveq : ((pyLower (quotePlus kv.1) ++ '=' :: pyLower (quotePlus kv.2)).dropWhile
      (fun c => c ≠ '=')).tail = pyLower (quotePlus kv.2) := by
    rw [dropWhile_append_of_all _ (fun c hc => by
      simp only [ne_eq, decide_eq_true_eq]
      exact (mem_pyLower_quotePlus hk hc).2.1)]
    simp [List.dropWhile_cons]
  show (if _ = ([] : List Char) then none else _) = some kv
  rw [if_neg (by simp)]
  rw [if_pos (by
    apply List.elem_iff.2
    apply List.mem_append.2
    exact Or.inr (by simp))]
  rw [hveq, hkeq]
  have hvnil : pyLower (quotePlus kv.2) ≠ [] := by
    intro hcon
    unfold pyLower at hcon
    rw [List.map_eq_nil_iff] at hcon
    exact hvne ((quotePlus_eq_nil_iff kv.2).1 hcon)
  rw [if_neg hvnil]
  rw [decode_pyLower_quotePlus hk, decode_pyLower_quotePlus hv]

/-! ## Grouping lemmas (parse_qs's dict building) -/

lemma addToGroups_not_mem {acc : List (List Char × List (List Char))}
    {k : List Char} (v : List Char) (h : ∀ g ∈ acc, g.1 ≠ k) :
    addToGroups acc k v = acc ++ [(k, [v])] := by
  induction acc with
  | nil => rfl
  | cons g rest ih =>
    unfold addToGroups
    rw [if_neg (h g (by simp)), ih (fun g' hg' => h g' (by simp [hg']))]
    rfl

lemma addToGroups_existing {acc : List (List Char × List (List Char))}
    {k : List Char} (vs : List (List Char)) (v : List Char)
    (h : ∀ g ∈ acc, g.1 ≠ k) :
    addToGroups (acc ++ [(k, vs)]) k v = acc ++ [(k, vs ++ [v])] := by
  induction acc with
  | nil => simp [addToGroups]
  | cons g rest ih =>
    show addToGroups ((g :: rest) ++ [(k, vs)]) k v = _
    rw [List.cons_append]
    unfold addToGroups
    rw [if_neg (h g (by simp)), ih (fun g' hg' => h g' (by simp [hg']))]
    rfl

lemma foldl_addToGroups_values {k : List Char}
    (acc : List (List Char × List (List Char))) (vs₁ vs₂ : List (List Char))
    (h : ∀ g ∈ acc, g.1 ≠ k) :
    ((vs₂.map (fun v => (k, v))).foldl (fun a kv => addToGroups a kv.1 kv.2)
      (acc ++ [(k, vs₁)])) = acc ++ [(k, vs₁ ++ vs₂)] := by
  induction vs₂ generalizing vs₁ with
  | nil => simp
  | cons v vs ih =>
    simp only [List.map_cons, List.foldl_cons]
    rw [addToGroups_existing vs₁ v h, ih (vs₁ ++ [v])]
    simp

lemma foldl_addToGroups_flat (D : List (List Char × List (List Char)))
    (hpw : List.Pairwise (fun g1 g2 => g1.1 ≠ g2.1) D) (hne : ∀ g ∈ D, g.2 ≠ []) :
    ∀ acc, (∀ g ∈ D, ∀ a ∈ acc, a.1 ≠ g.1) →
    (flatPairs D).foldl (fun a kv => addToGroups a kv.1 kv.2) acc = acc ++ D := by
  induction D with
  | nil => intro acc _; simp [flatPairs]
  | cons g D' ih =>
    intro acc hdisj
    obtain ⟨k, vs⟩ := g
    have hflat : flatPairs ((k, vs) :: D')
        = (vs.map (fun v => (k, v))) ++ flatPairs D' := by
      simp [flatPairs]
    rw [hflat, List.foldl_append]
    cases hvs : vs with
    | nil => exact absurd rfl (hvs ▸ hne (k, vs) (by simp))
    | cons v vs' =>
      subst hvs
      have hacck : ∀ a ∈ acc, a.1 ≠ k := by
        intro a ha
        exact hdisj (k, v :: vs') (by simp) a ha
      have hstep1 : (((v :: vs').map (fun w => (k, w))).foldl
          (fun a kv => addToGroups a kv.1 kv.2) acc) = acc ++ [(k, v :: vs')] := by
        simp only [List.map_cons, List.foldl_cons]
        rw [addToGroups_not_mem v hacck, foldl_addToGroups_values acc [v] vs' hacck]
        simp
      rw [hstep1]
      have hih := ih (List.Pairwise.of_cons hpw) (fun g hg => hne g (by simp [hg]))
        (acc ++ [(k, v :: vs')]) ?newdisj
      · rw [hih]
        simp
      case newdisj =>
        intro g2 hg2 a ha
        rcases List.mem_append.1 ha with ha1 | ha2
        · exact hdisj g2 (by simp [hg2]) a ha1
        · simp only [List.mem_singleton] at ha2
          subst ha2
          exact (List.pairwise_cons.1 hpw).1 g2 hg2

lemma mem_addToGroups_src {acc : List (List Char × List (List Char))}
    {k v : List Char} {g : List Char × List (List Char)}
    (hg : g ∈ addToGroups acc k v) :
    (g.1 = k ∨ ∃ g' ∈ acc, g.1 = g'.1)
    ∧ (∀ w ∈ g.2, w = v ∨ ∃ g' ∈ acc, w ∈ g'.2) := by
  induction acc with
  | nil =>
    simp only [addToGroups, List.mem_singleton] at hg
    subst hg
    constructor
    · exact Or.inl rfl
    · intro w hw
      simp only [List.mem_singleton] at hw
      exact Or.inl hw
  | cons g0 rest ih =>
    unfold addToGroups at hg
    split_ifs at hg with heq
    · rcases List.mem_cons.1 hg with rfl | hg2
      · constructor
        · exact Or.inl heq
        · intro w hw
          rcases List.mem_append.1 hw with hw1 | hw2
          · exact Or.inr ⟨g0, by simp, hw1⟩
          · simp only [List.mem_singleton] at hw2
            exact Or.inl hw2
      · constructor
        · exact Or.inr ⟨g, by simp [hg2], rfl⟩
        · intro w hw
          exact Or.inr ⟨g, by simp [hg2], hw⟩
    · rcases List.mem_cons.1 hg with rfl | hg2
      · constructor
        · exact Or.inr ⟨g, by simp, rfl⟩
        · intro w hw
          exact Or.inr ⟨g, by simp, hw⟩
      · obtain ⟨ihk, ihv⟩ := ih hg2
        constructor
        · rcases ihk with h | ⟨g', hg', hh⟩
          · exact Or.inl h
          · exact Or.inr ⟨g', by simp [hg'], hh⟩
        · intro w hw
          rcases ihv w hw with h | ⟨g', hg', hh⟩
          · exact Or.inl h
          · exact Or.inr ⟨g', by simp [hg'], hh⟩

lemma addToGroups_pairwise {acc : List (List Char × List (List Char))}
    {k v : List Char} (h : List.Pairwise (fun g1 g2 => g1.1 ≠ g2.1) acc) :
    List.Pairwise (fun g1 g2 => g1.1 ≠ g2.1) (addToGroups acc k v) := by
  induction acc with
  | nil => simp [addToGroups]
  | cons g0 rest ih =>
    obtain ⟨hhead, htail⟩ := List.pairwise_cons.1 h
    unfold addToGroups
    split_ifs with heq
    · exact List.pairwise_cons.2 ⟨hhead, htail⟩
    · apply List.pairwise_cons.2
      refine ⟨?_, ih htail⟩
      intro g' hg'
      rcases (mem_addToGroups_src hg').1 with h1 | ⟨g'', hg'', h2⟩
      · rw [h1]
        exact heq
      · rw [h2]
        exact hhead g'' hg''

lemma addToGroups_values_ne {acc : List (List Char × List (List Char))}
    {k v : List Char} (h : ∀ g ∈ acc, g.2 ≠ []) :
    ∀ g ∈ addToGroups acc k v, g.2 ≠ [] := by
  intro g hg
  induction acc with
  | nil =>
    simp only [addToGroups, List.mem_singleton] at hg
    subst hg
    simp
  | cons g0 rest ih =>
    unfold addToGroups at hg
    split_ifs at hg with heq
    · rcases List.mem_cons.1 hg with rfl | hg2
      · simp
      · exact h g (by simp [hg2])
    · rcases List.mem_cons.1 hg with rfl | hg2
      · exact h g (by simp)
      · exact ih (fun g' hg' => h g' (by simp [hg'])) hg2

lemma foldl_addToGroups_pairwise (pairs : List (List Char × List Char)) :
    ∀ acc, List.Pairwise (fun g1 g2 => g1.1 ≠ g2.1) acc →
    List.Pairwise (fun g1 g2 => g1.1 ≠ g2.1)
      (pairs.foldl (fun a kv => addToGroups a kv.1 kv.2) acc) := by
  induction pairs with
  | nil => intro acc h; exact h
  | cons kv rest ih =>
    intro acc h
    exact ih _ (addToGroups_pairwise h)

lemma foldl_addToGroups_values_ne (pairs : List (List Char × List Char)) :
    ∀ acc, (∀ g ∈ acc, g.2 ≠ []) →
    ∀ g ∈ pairs.foldl (fun a kv => addToGroups a kv.1 kv.2) acc, g.2 ≠ [] := by
  induction pairs with
  | nil => intro acc h; exact h
  | cons kv rest ih =>
    intro acc h
    exact ih _ (addToGroups_values_ne h)

lemma foldl_addToGroups_charset (P Q : List Char → Prop)
    (pairs : List (List Char × List Char)) :
    ∀ acc, (∀ kv ∈ pairs, P kv.1 ∧ Q kv.2) →
    (∀ g ∈ acc, P g.1 ∧ ∀ w ∈ g.2, Q w) →
    ∀ g ∈ pairs.foldl (fun a kv => addToGroups a kv.1 kv.2) acc,
      P g.1 ∧ ∀ w ∈ g.2, Q w := by
  induction pairs with
  | nil => intro acc _ hacc; exact hacc
  | cons kv rest ih =>
    intro acc hp hacc
    apply ih _ (fun kv' hkv' => hp kv' (by simp [hkv']))
    intro g hg
    obtain ⟨hsrck, hsrcv⟩ := mem_addToGroups_src hg
    constructor
    · rcases hsrck with h | ⟨g', hg', hh⟩
      · rw [h]
        exact (hp kv (by simp)).1
      · rw [hh]
        exact (hacc g' hg').1
    · intro w hw
      rcases hsrcv w hw with h | ⟨g', hg', hh⟩
      · rw [h]
        exact (hp kv (by simp)).2
      · exact (hacc g' hg').2 w hh

lemma mem_flatPairs {D : List (List Char × List (List Char))}
    {kv : List Char × List Char} :
    kv ∈ flatPairs D ↔ ∃ g ∈ D, kv.1 = g.1 ∧ kv.2 ∈ g.2 := by
  unfold flatPairs
  simp only [List.mem_flatten, List.mem_map]
  constructor
  · rintro ⟨l, ⟨g, hg, rfl⟩, hkv⟩
    rcases List.mem_map.1 hkv with ⟨v, hv, rfl⟩
    exact ⟨g, hg, rfl, hv⟩
  · rintro ⟨g, hg, h1, h2⟩
    refine ⟨g.2.map (fun v => (g.1, v)), ⟨g, hg, rfl⟩, ?_⟩
    rcases kv with ⟨k, v⟩
    simp only at h1 h2
    subst h1
    exact List.mem_map.2 ⟨v, h2, rfl⟩

/-- `parse_qs` inverts the lowered `urlencode` of a well-formed grouped
parameter list (distinct keys, nonempty values, ASCII lowercase-stable
data). -/
lemma parse_qs_pyLower_urlencode (D : List (List Char × List (List Char)))
    (hpw : List.Pairwise (fun g1 g2 => g1.1 ≠ g2.1) D)
    (hne : ∀ g ∈ D, g.2 ≠ [])
    (hch : ∀ g ∈ D, (∀ c ∈ g.1, c.toNat < 128 ∧ Char.toLower c = c)
      ∧ ∀ w ∈ g.2, (∀ c ∈ w, c.toNat < 128 ∧ Char.toLower c = c) ∧ w ≠ []) :
    parse_qs (pyLower (urlencode D)) = D := by
  have hflatmap : ∀ E : List (List Char × List (List Char)),
      (E.map (fun kv => kv.2.map (fun v => quotePlus kv.1 ++ '=' :: quotePlus v))).flatten
      = (flatPairs E).map (fun kv => quotePlus kv.1 ++ '=' :: quotePlus kv.2) := by
    intro E
    induction E with
    | nil => rfl
    | cons g E' ihE =>
      show (g.2.map (fun v => quotePlus g.1 ++ '=' :: quotePlus v))
          ++ (E'.map _).flatten = _
      rw [ihE]
      show _ = ((g.2.map (fun v => (g.1, v))) ++ flatPairs E').map
        (fun kv => quotePlus kv.1 ++ '=' :: quotePlus kv.2)
      rw [List.map_append, List.map_map]
      rfl
  unfold parse_qs urlencode
  rw [hflatmap D]
  rw [parse_qsl_join_encoded (flatPairs D) ?hfchars]
  case hfchars =>
    intro kv hkv
    rcases mem_flatPairs.1 hkv with ⟨g, hg, h1, h2⟩
    obtain ⟨hk, hv⟩ := hch g hg
    exact ⟨h1 ▸ hk, (hv kv.2 h2).1, (hv kv.2 h2).2⟩
  have := foldl_addToGroups_flat D hpw hne [] (by simp)
  simpa using this

/-- The pairs produced by `parse_qsl` on a raw query over the well-formed
query alphabet: ASCII, lowercase-stable, with nonempty values. -/
lemma parse_qsl_wf {q : List Char} (hq : ∀ c ∈ q, goodQueryChar c = true) :
    ∀ kv ∈ parse_qsl q,
      (∀ c ∈ kv.1, c.toNat < 128 ∧ Char.toLower c = c)
      ∧ (∀ c ∈ kv.2, c.toNat < 128 ∧ Char.toLower c = c)
      ∧ kv.2 ≠ [] := by
  intro kv hkv
  unfold parse_qsl at hkv
  rcases List.mem_filterMap.1 hkv with ⟨nv, hnv, hf⟩
  have hnvchars : ∀ c ∈ nv, goodQueryChar c = true :=
    fun c hc => hq c (mem_splitOnChar_mem '&' hnv hc)
  split_ifs at hf with h1 h2 h3
  simp only [Option.some.injEq] at hf
  subst hf
  have hgood : ∀ c : Char, goodQueryChar c = true →
      c.toNat < 128 ∧ Char.toLower c = c ∧ c ≠ '%' := by
    intro c hc
    unfold goodQueryChar at hc
    simp only [Bool.and_eq_true, decide_eq_true_eq] at hc
    exact ⟨hc.2.1, hc.2.2.1, hc.2.2.2.2⟩
  have hdec : ∀ x : List Char, (∀ c ∈ x, goodQueryChar c = true) →
      pyUnquote (replacePlus x) = replacePlus x
      ∧ ∀ c ∈ replacePlus x, c.toNat < 128 ∧ Char.toLower c = c := by
    intro x hx
    have hmem : ∀ c ∈ replacePlus x, c = ' ' ∨ c ∈ x := by
      intro c hc
      rcases List.mem_map.1 hc with ⟨d, hd, hcd⟩
      by_cases hdp : d = '+'
      · simp [hdp] at hcd
        exact Or.inl hcd.symm
      · simp [hdp] at hcd
        exact Or.inr (hcd ▸ hd)
    constructor
    · apply pyUnquote_of_no_escape
      intro c hc
      rcases hmem c hc with rfl | hcx
      · decide
      · exact (hgood c (hx c hcx)).2.2
    · intro c hc
      rcases hmem c hc with rfl | hcx
      · constructor <;> decide
      · exact ⟨(hgood c (hx c hcx)).1, (hgood c (hx c hcx)).2.1⟩
  have hksub : ∀ c ∈ nv.takeWhile (fun c => c ≠ '='), goodQueryChar c = true :=
    fun c hc => hnvchars c ((List.takeWhile_sublist _).subset hc)
  have hvsub : ∀ c ∈ (nv.dropWhile (fun c => c ≠ '=')).tail, goodQueryChar c = true :=
    fun c hc => hnvchars c ((List.dropWhile_sublist _).subset
      ((List.tail_sublist _).subset hc))
  obtain ⟨hkdec, hkchars⟩ := hdec _ hksub
  obtain ⟨hvdec, hvchars⟩ := hdec _ hvsub
  refine ⟨by rw [hkdec]; exact hkchars, by rw [hvdec]; exact hvchars, ?_⟩
  rw [hvdec]
  intro hcon
  unfold replacePlus at hcon
  rw [List.map_eq_nil_iff] at hcon
  exact h3 hcon

/-- Membership in a joined list. -/
lemma mem_joinChar {ch : Char} {ps : List (List Char)} {d : Char}
    (hd : d ∈ joinChar ch ps) : d = ch ∨ ∃ p ∈ ps, d ∈ p := by
  induction ps with
  | nil => simp [joinChar] at hd
  | cons x rest ih =>
    cases rest with
    | nil => exact Or.inr ⟨x, by simp, hd⟩
    | cons y rest2 =>
      rcases List.mem_append.1 hd with h1 | h2
      · exact Or.inr ⟨x, by simp, h1⟩
      · rcases List.mem_cons.1 h2 with rfl | h3
        · exact Or.inl rfl
        · rcases ih h3 with h | ⟨p, hp, hdp⟩
          · exact Or.inl h
          · exact Or.inr ⟨p, by simp [hp], hdp⟩

lemma hexDigitUpper_facts : ∀ n : Nat, n < 16 →
    32 < (hexDigitUpper n).toNat ∧ hexDigitUpper n ≠ '#' := by decide

/-- Characters of raw (unlowered) `quote_plus` output are printable and
are not `#`. -/
lemma mem_quotePlus_facts {x : List Char} {d : Char} (hd : d ∈ quotePlus x) :
    32 < d.toNat ∧ d ≠ '#' := by
  induction x with
  | nil => simp [quotePlus] at hd
  | cons c rest ih =>
    rw [quotePlus_cons] at hd
    rcases List.mem_append.1 hd with hd1 | hd2
    · unfold quotePlusChar at hd1
      split_ifs at hd1 with hsafe hspace
      · simp only [List.mem_singleton] at hd1
        subst hd1
        obtain ⟨_, _, f3, _, _, _, f7⟩ := quoteSafe_facts hsafe
        exact ⟨f7, f3⟩
      · simp only [List.mem_singleton] at hd1
        subst hd1
        constructor <;> decide
      · simp only [List.mem_cons, List.mem_singleton, List.not_mem_nil, or_false] at hd1
        rcases hd1 with rfl | rfl | rfl
        · constructor <;> decide
        · exact hexDigitUpper_facts _ (by omega)
        · exact hexDigitUpper_facts _ (by omega)
    · exact ih hd2

/-- Characters of `urlencode` output are printable and are not `#`. -/
lemma mem_urlencode_facts {G : List (List Char × List (List Char))} {d : Char}
    (hd : d ∈ urlencode G) : 32 < d.toNat ∧ d ≠ '#' := by
  unfold urlencode at hd
  rcases mem_joinChar hd with rfl | ⟨p, hp, hdp⟩
  · constructor <;> decide
  · rcases List.mem_flatten.1 hp with ⟨l, hl, hpl⟩
    rcases List.mem_map.1 hl with ⟨g, _, rfl⟩
    rcases List.mem_map.1 hpl with ⟨v, _, rfl⟩
    rcases List.mem_append.1 hdp with h1 | h2
    · exact mem_quotePlus_facts h1
    · rcases List.mem_cons.1 h2 with rfl | h3
      · constructor <;> decide
      · exact mem_quotePlus_facts h3

lemma joinChar_cons_ne_nil {ch : Char} {p : List Char} {ps : List (List Char)}
    (hp : p ≠ []) : joinChar ch (p :: ps) ≠ [] := by
  cases ps with
  | nil => exact hp
  | cons y rest =>
    show p ++ ch :: joinChar ch (y :: rest) ≠ []
    simp

lemma urlencode_ne_nil {G : List (List Char × List (List Char))}
    (hG : G ≠ []) (hvs : ∀ g ∈ G, g.2 ≠ []) : urlencode G ≠ [] := by
  cases G with
  | nil => exact absurd rfl hG
  | cons g rest =>
    unfold urlencode
    cases hg2 : g.2 with
    | nil => exact absurd rfl (hg2 ▸ hvs g (by simp))
    | cons v vs =>
      show joinChar '&' (((g.2.map (fun w => quotePlus g.1 ++ '=' :: quotePlus w))
        ++ (rest.map _).flatten)) ≠ []
      rw [hg2]
      simp only [List.map_cons, List.cons_append]
      apply joinChar_cons_ne_nil
      simp

/-! ## Tracking filter and scheme/params split lemmas -/

lemma filterTracking_idem (G : List (List Char × List (List Char))) :
    filterTracking (filterTracking G) = filterTracking G := by
  apply List.filter_eq_self.mpr
  intro g hg
  exact (List.mem_filter.1 hg).2

lemma filterTracking_sublist (G : List (List Char × List (List Char))) :
    List.Sublist (filterTracking G) G := List.filter_sublist G

lemma pyFindIdx_colon (s r : List Char) (hs : ∀ c ∈ s, c ≠ ':') :
    pyFindIdx (fun c => c = ':') (s ++ ':' :: r) = some s.length := by
  induction s with
  | nil => simp [pyFindIdx]
  | cons c rest ih =>
    show pyFindIdx (fun c => c = ':') (c :: (rest ++ ':' :: r)) = _
    unfold pyFindIdx
    rw [if_neg ?hc, ih (fun d hd => hs d (by simp [hd]))]
    · rfl
    case hc =>
      simp only [decide_eq_true_eq]
      exact hs c (by simp)

lemma contains_eq_false_of_all {l : List Char} {c : Char} (h : ∀ d ∈ l, d ≠ c) :
    l.contains c = false := by
  by_contra hcon
  have : l.contains c = true := by
    revert hcon
    cases l.contains c <;> simp
  exact h c (List.elem_iff.1 this) rfl

lemma splitScheme_build (s r : List Char) (hsne : s ≠ [])
    (hscolon : ∀ c ∈ s, c ≠ ':')
    (halpha : (s.headD ' ').isAlpha = true)
    (hschars : s.all isSchemeChar = true)
    (hlow : pyLower s = s) :
    splitScheme (s ++ ':' :: r) = (s, r) := by
  unfold splitScheme
  rw [pyFindIdx_colon s r hscolon]
  dsimp only
  have htake : (s ++ ':' :: r).take s.length = s := List.take_left s _
  have hdrop : (s ++ ':' :: r).drop (s.length + 1) = r := by
    rw [List.append_cons]
    have hlen : (s ++ [':']).length = s.length + 1 := by simp
    rw [← hlen, List.drop_left]
  have hhead : (s ++ ':' :: r).headD ' ' = s.headD ' ' := by
    cases s with
    | nil => exact absurd rfl hsne
    | cons c rest => rfl
  rw [if_pos ?cond, htake, hdrop, hlow]
  case cond =>
    refine ⟨List.length_pos.2 hsne, ?_, ?_⟩
    · rw [hhead]
      exact halpha
    · rw [htake]
      exact hschars

lemma splitparamsPath_noop {p : List Char} (h : ∀ c ∈ p, c ≠ ';') :
    splitparamsPath p = p := by
  unfold splitparamsPath
  split_ifs with h1 h2 h3
  · exfalso
    have hmem : (';' : Char) ∈ (p.reverse.takeWhile (fun c => c ≠ '/')).reverse :=
      List.elem_iff.1 h2
    rw [List.mem_reverse] at hmem
    exact h ';' (List.mem_reverse.1 ((List.takeWhile_sublist _).subset hmem)) rfl
  · rfl
  · exact absurd ((List.elem_iff.1 h3)) (fun hc => h ';' hc rfl)
  · rfl

/-- `urlsplit` on a well-formed `scheme://host path query` assembly
recovers exactly the assembled components. -/
lemma urlsplitE_build (s h p qp : List Char)
    (hsne : s ≠ [])
    (hscolon : ∀ c ∈ s, c ≠ ':')
    (halpha : (s.headD ' ').isAlpha = true)
    (hschars : s.all isSchemeChar = true)
    (hlow : pyLower s = s)
    (hh : ∀ c ∈ h, isNetlocEnd c = false)
    (hnb1 : ∀ c ∈ h, c ≠ '[')
    (hnb2 : ∀ c ∈ h, c ≠ ']')
    (hp1 : p = [] ∨ p.take 1 = ['/'])
    (hpnq : ∀ c ∈ p, c ≠ '?')
    (hpnh : ∀ c ∈ p, c ≠ '#')
    (hqp : qp = [] ∨ ∃ q, qp = '?' :: q ∧ ∀ c ∈ q, c ≠ '#')
    (hclean : ∀ c ∈ s ++ ':' :: '/' :: '/' :: (h ++ p ++ qp), 32 < c.toNat) :
    urlsplitE (s ++ ':' :: '/' :: '/' :: (h ++ p ++ qp))
      = .ok ⟨s, h, p, qp.tail⟩ := by
  have hcb1 : h.contains '[' = false := contains_eq_false_of_all hnb1
  have hcb2 : h.contains ']' = false := contains_eq_false_of_all hnb2
  have hbr : bracketMismatch h = false := by
    unfold bracketMismatch
    rw [hcb1, hcb2]
    rfl
  have hcl := urlsplitClean_eq_self hclean
  have hsch := splitScheme_build s ('/' :: '/' :: (h ++ p ++ qp)) hsne hscolon
    halpha hschars hlow
  have htwnil : (p ++ qp).takeWhile (fun c => !isNetlocEnd c) = [] := by
    rcases hp1 with rfl | hps
    · rcases hqp with rfl | ⟨q, rfl, _⟩
      · rfl
      · simp [List.takeWhile_cons, isNetlocEnd]
    · cases p with
      | nil => simp at hps
      | cons c rest =>
        simp only [List.take, List.cons.injEq] at hps
        rw [List.cons_append, hps.1]
        simp [List.takeWhile_cons, isNetlocEnd]
  have htw : (h ++ p ++ qp).takeWhile (fun c => !isNetlocEnd c) = h := by
    rw [List.append_assoc, takeWhile_append_of_all _ (fun c hc => by simp [hh c hc]),
      htwnil, List.append_nil]
  have hdw : (h ++ p ++ qp).dropWhile (fun c => !isNetlocEnd c) = p ++ qp := by
    rw [List.append_assoc, dropWhile_append_of_all _ (fun c hc => by simp [hh c hc])]
    rcases hp1 with rfl | hps
    · rcases hqp with rfl | ⟨q, rfl, _⟩
      · rfl
      · simp [List.dropWhile_cons, isNetlocEnd]
    · cases p with
      | nil => simp at hps
      | cons c rest =>
        simp only [List.take, List.cons.injEq] at hps
        rw [hps.1]
        simp [List.dropWhile_cons, isNetlocEnd]
  have hfrag : takeUntilChar '#' (p ++ qp) = p ++ qp := by
    unfold takeUntilChar
    apply takeWhile_eq_self_of_all
    intro c hc
    simp only [ne_eq, decide_eq_true_eq]
    rcases List.mem_append.1 hc with hc1 | hc2
    · exact hpnh c hc1
    · rcases hqp with rfl | ⟨q, rfl, hqh⟩
      · simp at hc2
      · rcases List.mem_cons.1 hc2 with rfl | hc3
        · decide
        · exact hqh c hc3
  have hpq : pathQueryOf (p ++ qp) = (p, qp.tail) := by
    unfold pathQueryOf splitFirstAt
    rw [hfrag]
    rcases hqp with rfl | ⟨q, rfl, _⟩
    · rw [if_neg ?nc]
      · simp
      case nc =>
        simp only [List.append_nil]
        intro hc
        exact absurd (List.elem_iff.1 hc) (fun hm => hpnq '?' hm rfl)
    · rw [if_pos ?yc]
      case yc =>
        apply List.elem_iff.2
        exact List.mem_append.2 (Or.inr (by simp))
      have htk : (p ++ '?' :: q).takeWhile (fun c => c ≠ '?') = p := by
        rw [takeWhile_append_of_all _ (fun c hc => by
          simp only [ne_eq, decide_eq_true_eq]
          exact hpnq c hc)]
        simp [List.takeWhile_cons]
      have hdk : (p ++ '?' :: q).dropWhile (fun c => c ≠ '?') = '?' :: q := by
        rw [dropWhile_append_of_all _ (fun c hc => by
          simp only [ne_eq, decide_eq_true_eq]
          exact hpnq c hc)]
        simp [List.dropWhile_cons]
      rw [htk, hdk]
  unfold urlsplitE
  rw [hcl, hsch]
  dsimp only
  rw [if_pos (show List.take 2 ('/' :: '/' :: (h ++ p ++ qp)) = ['/', '/'] from rfl)]
  simp only [List.drop_succ_cons, List.drop_zero]
  rw [htw, hdw, hpq, if_neg (by simp [hbr]), if_neg (by rw [hcb1]; simp)]

/-- `urlparse` on the same assembly (the path has no `;`, so the params
split is the identity). -/
lemma urlparseE_build (s h p qp : List Char)
    (hsne : s ≠ [])
    (hscolon : ∀ c ∈ s, c ≠ ':')
    (halpha : (s.headD ' ').isAlpha = true)
    (hschars : s.all isSchemeChar = true)
    (hlow : pyLower s = s)
    (hh : ∀ c ∈ h, isNetlocEnd c = false)
    (hnb1 : ∀ c ∈ h, c ≠ '[')
    (hnb2 : ∀ c ∈ h, c ≠ ']')
    (hp1 : p = [] ∨ p.take 1 = ['/'])
    (hpnq : ∀ c ∈ p, c ≠ '?')
    (hpnh : ∀ c ∈ p, c ≠ '#')
    (hpns : ∀ c ∈ p, c ≠ ';')
    (hqp : qp = [] ∨ ∃ q, qp = '?' :: q ∧ ∀ c ∈ q, c ≠ '#')
    (hclean : ∀ c ∈ s ++ ':' :: '/' :: '/' :: (h ++ p ++ qp), 32 < c.toNat) :
    urlparseE (s ++ ':' :: '/' :: '/' :: (h ++ p ++ qp))
      = .ok ⟨s, h, p, qp.tail⟩ := by
  unfold urlparseE
  rw [urlsplitE_build s h p qp hsne hscolon halpha hschars hlow hh hnb1 hnb2 hp1
    hpnq hpnh hqp hclean]
  dsimp only
  rw [splitparamsPath_noop hpns]

/-! ## Character-class facts -/

lemma toNat_ofNat_valid {n : Nat} (h : n < 55296) : (Char.ofNat n).toNat = n := by
  unfold Char.ofNat
  rw [dif_pos (Or.inl h)]
  simp [Char.ofNatAux, Char.toNat, UInt32.toNat]

lemma toLower_cases (c : Char) :
    Char.toLower c = c
    ∨ (65 ≤ c.toNat ∧ c.toNat ≤ 90 ∧ (Char.toLower c).toNat = c.toNat + 32) := by
  unfold Char.toLower
  dsimp only
  by_cases hc : c.toNat ≥ 65 ∧ c.toNat ≤ 90
  · right
    rw [if_pos hc]
    exact ⟨hc.1, hc.2, toNat_ofNat_valid (by omega)⟩
  · left
    rw [if_neg hc]

lemma toLower_eq_self_of_not_upper {c : Char} (h : ¬ (65 ≤ c.toNat ∧ c.toNat ≤ 90)) :
    Char.toLower c = c := by
  rcases toLower_cases c with h1 | ⟨h2, h3, _⟩
  · exact h1
  · exact absurd ⟨h2, h3⟩ h

lemma toLower_gt32 {c : Char} (h : 32 < c.toNat) : 32 < (Char.toLower c).toNat := by
  rcases toLower_cases c with h1 | ⟨_, _, h3⟩
  · rw [h1]
    exact h
  · omega

lemma toLower_ne_low {c t : Char} (ht : t.toNat < 97) (h : c ≠ t) :
    Char.toLower c ≠ t := by
  rcases toLower_cases c with h1 | ⟨_, _, h3⟩
  · rw [h1]
    exact h
  · intro hcon
    rw [hcon] at h3
    omega

lemma char_ne_of_toNat {c t : Char} (m : Nat) (ht : t.toNat = m) (h : c.toNat ≠ m) :
    c ≠ t := fun heq => h (by rw [heq, ht])

lemma isNetlocEnd_eq_false {c : Char} (h1 : c ≠ '/') (h2 : c ≠ '?') (h3 : c ≠ '#') :
    isNetlocEnd c = false := by
  unfold isNetlocEnd
  simp [h1, h2, h3]

lemma goodSchemeChar_facts {c : Char} (h : goodSchemeChar c = true) :
    c ≠ ':' ∧ isSchemeChar c = true ∧ Char.toLower c = c ∧ 32 < c.toNat
    ∧ c.isAlpha = true := by
  unfold goodSchemeChar at h
  simp only [Bool.and_eq_true, decide_eq_true_eq] at h
  have h1 : 97 ≤ c.toNat := h.1
  have h2 : c.toNat ≤ 122 := h.2
  refine ⟨char_ne_of_toNat 58 (by decide) (by omega), ?_, ?_, by omega, ?_⟩
  · unfold isSchemeChar Char.isAlphanum Char.isAlpha Char.isLower
    simp only [Bool.or_eq_true, Bool.and_eq_true, decide_eq_true_eq]
    exact Or.inl (Or.inl (Or.inr ⟨h.1, h.2⟩))
  · exact toLower_eq_self_of_not_upper (by omega)
  · unfold Char.isAlpha Char.isLower
    simp only [Bool.or_eq_true, Bool.and_eq_true, decide_eq_true_eq]
    exact Or.inr ⟨h.1, h.2⟩

lemma goodHostChar_facts {c : Char} (h : goodHostChar c = true) :
    isNetlocEnd c = false ∧ c ≠ '[' ∧ c ≠ ']' ∧ Char.toLower c = c ∧ 32 < c.toNat := by
  unfold goodHostChar at h
  simp only [Bool.or_eq_true, Bool.and_eq_true, decide_eq_true_eq] at h
  have hfacts : (97 ≤ c.toNat ∧ c.toNat ≤ 122) ∨ (48 ≤ c.toNat ∧ c.toNat ≤ 57)
      ∨ c = '.' ∨ c = '-' := by
    rcases h with ⟨a, b⟩ | ⟨a, b⟩ | hh | hh
    · exact Or.inl ⟨a, b⟩
    · exact Or.inr (Or.inl ⟨a, b⟩)
    · exact Or.inr (Or.inr (Or.inl hh))
    · exact Or.inr (Or.inr (Or.inr hh))
  rcases hfacts with ⟨a, b⟩ | ⟨a, b⟩ | rfl | rfl
  · exact ⟨isNetlocEnd_eq_false (char_ne_of_toNat 47 (by decide) (by omega))
      (char_ne_of_toNat 63 (by decide) (by omega))
      (char_ne_of_toNat 35 (by decide) (by omega)),
      char_ne_of_toNat 91 (by decide) (by omega),
      char_ne_of_toNat 93 (by decide) (by omega),
      toLower_eq_self_of_not_upper (by omega), by omega⟩
  · exact ⟨isNetlocEnd_eq_false (char_ne_of_toNat 47 (by decide) (by omega))
      (char_ne_of_toNat 63 (by decide) (by omega))
      (char_ne_of_toNat 35 (by decide) (by omega)),
      char_ne_of_toNat 91 (by decide) (by omega),
      char_ne_of_toNat 93 (by decide) (by omega),
      toLower_eq_self_of_not_upper (by omega), by omega⟩
  · exact ⟨by decide, by decide, by decide, by decide, by decide⟩
  · exact ⟨by decide, by decide, by decide, by decide, by decide⟩

lemma goodPathChar_facts {c : Char} (h : goodPathChar c = true) :
    c ≠ '?' ∧ c ≠ '#' ∧ c ≠ ';' ∧ Char.toLower c = c ∧ 32 < c.toNat := by
  unfold goodPathChar at h
  simp only [Bool.or_eq_true, Bool.and_eq_true, decide_eq_true_eq] at h
  rcases h with ⟨a, b⟩ | ⟨a, b⟩ | rfl | rfl | rfl | rfl | rfl
  · have a' : 97 ≤ c.toNat := a
    have b' : c.toNat ≤ 122 := b
    exact ⟨char_ne_of_toNat 63 (by decide) (by omega),
      char_ne_of_toNat 35 (by decide) (by omega),
      char_ne_of_toNat 59 (by decide) (by omega),
      toLower_eq_self_of_not_upper (by omega), by omega⟩
  · have a' : 48 ≤ c.toNat := a
    have b' : c.toNat ≤ 57 := b
    exact ⟨char_ne_of_toNat 63 (by decide) (by omega),
      char_ne_of_toNat 35 (by decide) (by omega),
      char_ne_of_toNat 59 (by decide) (by omega),
      toLower_eq_self_of_not_upper (by omega), by omega⟩
  · exact ⟨by decide, by decide, by decide, by decide, by decide⟩
  · exact ⟨by decide, by decide, by decide, by decide, by decide⟩
  · exact ⟨by decide, by decide, by decide, by decide, by decide⟩
  · exact ⟨by decide, by decide, by decide, by decide, by decide⟩
  · exact ⟨by decide, by decide, by decide, by decide, by decide⟩

lemma goodQueryChar_facts {c : Char} (h : goodQueryChar c = true) :
    c ≠ '#' ∧ Char.toLower c = c ∧ 32 < c.toNat ∧ c.toNat < 128 ∧ c ≠ '%' := by
  unfold goodQueryChar at h
  simp only [Bool.and_eq_true, decide_eq_true_eq] at h
  exact ⟨h.2.2.2.1, h.2.2.1, h.1, h.2.1, h.2.2.2.2⟩

lemma rstripSlash_idem (p : List Char) : rstripSlash (rstripSlash p) = rstripSlash p := by
  unfold rstripSlash
  rw [List.reverse_reverse, dropWhile_idem]

lemma stripWww_of_not {x : List Char} (hx : x.take 4 ≠ "www.".data) :
    stripWww x = x := by
  unfold stripWww
  rw [if_neg hx]

lemma mem_stripWww {h : List Char} {c : Char} (hc : c ∈ stripWww h) : c ∈ h := by
  unfold stripWww at hc
  split_ifs at hc
  · exact List.drop_subset 4 h hc
  · exact hc

lemma mem_rstripSlash {p : List Char} {c : Char} (hc : c ∈ rstripSlash p) : c ∈ p := by
  unfold rstripSlash at hc
  rw [List.mem_reverse] at hc
  exact List.mem_reverse.1 ((List.dropWhile_sublist _).subset hc)

lemma rstripSlash_prefix (p : List Char) : List.IsPrefix (rstripSlash p) p := by
  refine ⟨(p.reverse.takeWhile (fun c => c = '/')).reverse, ?_⟩
  show (p.reverse.dropWhile (fun c => c = '/')).reverse
    ++ (p.reverse.takeWhile (fun c => c = '/')).reverse = p
  rw [← List.reverse_append, List.takeWhile_append_dropWhile, List.reverse_reverse]

lemma rstripSlash_shape {p : List Char} (hp : p = [] ∨ p.take 1 = ['/']) :
    rstripSlash p = [] ∨ (rstripSlash p).take 1 = ['/'] := by
  rcases hp with rfl | hps
  · exact Or.inl rfl
  · cases hrp : rstripSlash p with
    | nil => exact Or.inl rfl
    | cons c rest =>
      right
      obtain ⟨t, ht⟩ := rstripSlash_prefix p
      rw [hrp] at ht
      rw [← ht] at hps
      simp only [List.cons_append, List.take, List.cons.injEq] at hps ⊢
      exact ⟨hps.1, trivial⟩

/-- Evaluation of `normalize_url` on a well-formed
`scheme://host path [? query]` assembly: the scheme survives, the host
loses one leading `www.`, the path loses trailing slashes, and the query
is parsed, filtered of tracking parameters and re-encoded (or dropped when
nothing survives).  The query part `qp` is either empty or `?`-initiated;
only printability and `#`-freeness are assumed of it, so the lemma also
covers a second pass over an already-encoded query. -/
lemma normalize_eval (s h p qp : List Char)
    (hsne : s ≠ [])
    (hs2 : ∀ c ∈ s, goodSchemeChar c = true)
    (hh : ∀ c ∈ h, goodHostChar c = true)
    (hp1 : p = [] ∨ p.take 1 = ['/'])
    (hpc : ∀ c ∈ p, goodPathChar c = true)
    (hqp : qp = [] ∨ ∃ q, qp = '?' :: q ∧ ∀ c ∈ q, c ≠ '#' ∧ 32 < c.toNat) :
    normalize_url (String.mk (s ++ ':' :: '/' :: '/' :: (h ++ p ++ qp)))
      = .ok (String.mk (s ++ "://".data ++ stripWww h ++ rstripSlash p
          ++ (if filterTracking (parse_qs (pyLower qp).tail) = [] then []
              else '?' :: urlencode (filterTracking (parse_qs (pyLower qp).tail))))) := by
  have hscolon : ∀ c ∈ s, c ≠ ':' := fun c hc => (goodSchemeChar_facts (hs2 c hc)).1
  have halpha : (s.headD ' ').isAlpha = true := by
    cases s with
    | nil => exact absurd rfl hsne
    | cons c rest => exact (goodSchemeChar_facts (hs2 c (by simp))).2.2.2.2
  have hschars : s.all isSchemeChar = true :=
    List.all_eq_true.2 (fun c hc => (goodSchemeChar_facts (hs2 c hc)).2.1)
  have hlows : pyLower s = s :=
    pyLower_eq_self_of_all (fun c hc => (goodSchemeChar_facts (hs2 c hc)).2.2.1)
  have hhn : ∀ c ∈ h, isNetlocEnd c = false := fun c hc => (goodHostChar_facts (hh c hc)).1
  have hnb1 : ∀ c ∈ h, c ≠ '[' := fun c hc => (goodHostChar_facts (hh c hc)).2.1
  have hnb2 : ∀ c ∈ h, c ≠ ']' := fun c hc => (goodHostChar_facts (hh c hc)).2.2.1
  have hlowh : pyLower h = h :=
    pyLower_eq_self_of_all (fun c hc => (goodHostChar_facts (hh c hc)).2.2.2.1)
  have hpnq : ∀ c ∈ p, c ≠ '?' := fun c hc => (goodPathChar_facts (hpc c hc)).1
  have hpnh : ∀ c ∈ p, c ≠ '#' := fun c hc => (goodPathChar_facts (hpc c hc)).2.1
  have hpns : ∀ c ∈ p, c ≠ ';' := fun c hc => (goodPathChar_facts (hpc c hc)).2.2.1
  have hlowp : pyLower p = p :=
    pyLower_eq_self_of_all (fun c hc => (goodPathChar_facts (hpc c hc)).2.2.2.1)
  have hqp2 : pyLower qp = [] ∨ ∃ q2, pyLower qp = '?' :: q2 ∧ ∀ c ∈ q2, c ≠ '#' := by
    rcases hqp with rfl | ⟨q, rfl, hq⟩
    · exact Or.inl rfl
    · right
      refine ⟨pyLower q, ?_, ?_⟩
      · show Char.toLower '?' :: pyLower q = '?' :: pyLower q
        rw [show Char.toLower '?' = '?' from by decide]
      · intro c hc
        rcases List.mem_map.1 hc with ⟨d, hd, rfl⟩
        exact toLower_ne_low (by decide) (hq d hd).1
  have hgt : ∀ c ∈ s ++ ':' :: '/' :: '/' :: (h ++ p ++ pyLower qp), 32 < c.toNat := by
    intro c hc
    rcases List.mem_append.1 hc with hc1 | hc2
    · exact (goodSchemeChar_facts (hs2 c hc1)).2.2.2.1
    · rcases List.mem_cons.1 hc2 with rfl | hc3
      · decide
      · rcases List.mem_cons.1 hc3 with rfl | hc4
        · decide
        · rcases List.mem_cons.1 hc4 with rfl | hc5
          · decide
          · rcases List.mem_append.1 hc5 with hc6 | hc7
            · rcases List.mem_append.1 hc6 with hc8 | hc9
              · exact (goodHostChar_facts (hh c hc8)).2.2.2.2
              · exact (goodPathChar_facts (hpc c hc9)).2.2.2.2
            · rcases hqp with rfl | ⟨q, rfl, hq⟩
              · simp [pyLower] at hc7
              · rcases List.mem_cons.1 hc7 with h8 | hc8
                · rw [h8]
                  decide
                · rcases List.mem_map.1 hc8 with ⟨d, hd, rfl⟩
                  exact toLower_gt32 (hq d hd).2
  have hlowqp : pyLower (':' :: '/' :: '/' :: (h ++ p ++ qp))
      = ':' :: '/' :: '/' :: (h ++ p ++ pyLower qp) := by
    show Char.toLower ':' :: Char.toLower '/' :: Char.toLower '/'
        :: pyLower (h ++ p ++ qp) = _
    rw [show Char.toLower ':' = ':' from by decide,
      show Char.toLower '/' = '/' from by decide,
      pyLower_append, pyLower_append, hlowh, hlowp]
  have hFvals : ∀ g ∈ filterTracking (parse_qs (pyLower qp).tail), g.2 ≠ [] := by
    intro g hg
    exact foldl_addToGroups_values_ne (parse_qsl (pyLower qp).tail) [] (by simp) g
      ((filterTracking_sublist _).subset hg)
  unfold normalize_url
  have hdata : (String.mk (s ++ ':' :: '/' :: '/' :: (h ++ p ++ qp))).data
      = s ++ ':' :: '/' :: '/' :: (h ++ p ++ qp) := rfl
  rw [hdata, pyLower_append, hlows, hlowqp,
    pyStrip_eq_self hgt,
    urlparseE_build s h p (pyLower qp) hsne hscolon halpha hschars hlows hhn hnb1 hnb2
      hp1 hpnq hpnh hpns hqp2 hgt]
  dsimp only
  by_cases hF : filterTracking (parse_qs (pyLower qp).tail) = []
  · rw [if_pos (by rw [if_pos hF])]
    rw [if_pos hF, List.append_nil]
  · rw [if_neg (by rw [if_neg hF]; exact urlencode_ne_nil hF hFvals)]
    rw [if_neg hF]

/-- C7 amended: `normalize_url` IS idempotent on well-formed URLs — those
of the shape `scheme://host[path][?query]` with a lowercase alphabetic
scheme, a lowercase host that does not start with a doubled `www.`, a
`/`-initiated path over the unreserved path alphabet, and a query over the
unreserved `k=v&`-alphabet.  The first pass reaches a fixed point: the
scheme and host are already lowercase, `www.`-stripping and
trailing-slash-stripping are idempotent, and re-parsing the re-encoded
query recovers exactly the filtered parameter groups, which the tracking
filter then leaves unchanged.  (Idempotence fails off this class — see the
scheme-less counterexample — so the spec's unconditional claim is
corrected to this guarded form.) -/
theorem normalize_url_idempotent_on_wf
    (s h p qp : List Char)
    (hsne : s ≠ [])
    (hs : ∀ c ∈ s, goodSchemeChar c = true)
    (hh : ∀ c ∈ h, goodHostChar c = true)
    (hw : (stripWww h).take 4 ≠ "www.".data)
    (hp1 : p = [] ∨ p.take 1 = ['/'])
    (hpc : ∀ c ∈ p, goodPathChar c = true)
    (hqp : qp = [] ∨ ∃ q, qp = '?' :: q ∧ ∀ c ∈ q, goodQueryChar c = true) :
    ∃ v, normalize_url (String.mk (s ++ ':' :: '/' :: '/' :: (h ++ p ++ qp))) = Except.ok v
      ∧ normalize_url v = Except.ok v := by
  have hqp' : qp = [] ∨ ∃ q, qp = '?' :: q ∧ ∀ c ∈ q, c ≠ '#' ∧ 32 < c.toNat := by
    rcases hqp with rfl | ⟨q, rfl, hq⟩
    · exact Or.inl rfl
    · exact Or.inr ⟨q, rfl, fun c hc => ⟨(goodQueryChar_facts (hq c hc)).1,
        (goodQueryChar_facts (hq c hc)).2.2.1⟩⟩
  have hQ0 : ∀ c ∈ (pyLower qp).tail, goodQueryChar c = true := by
    rcases hqp with rfl | ⟨q, rfl, hq⟩
    · intro c hc
      simp [pyLower] at hc
    · have hlq : pyLower ('?' :: q) = '?' :: q := by
        show Char.toLower '?' :: pyLower q = _
        rw [show Char.toLower '?' = '?' from by decide,
          pyLower_eq_self_of_all (fun c hc => (goodQueryChar_facts (hq c hc)).2.1)]
      rw [hlq]
      exact hq
  have hpass1 := normalize_eval s h p qp hsne hs hh hp1 hpc hqp'
  set F := filterTracking (parse_qs (pyLower qp).tail) with hFdef
  have hh2 : ∀ c ∈ stripWww h, goodHostChar c = true :=
    fun c hc => hh c (mem_stripWww hc)
  have hp2 : rstripSlash p = [] ∨ (rstripSlash p).take 1 = ['/'] := rstripSlash_shape hp1
  have hpc2 : ∀ c ∈ rstripSlash p, goodPathChar c = true :=
    fun c hc => hpc c (mem_rstripSlash hc)
  have hqp2 : (if F = [] then ([] : List Char) else '?' :: urlencode F) = []
      ∨ ∃ q, (if F = [] then ([] : List Char) else '?' :: urlencode F) = '?' :: q
        ∧ ∀ c ∈ q, c ≠ '#' ∧ 32 < c.toNat := by
    by_cases hF : F = []
    · exact Or.inl (if_pos hF)
    · refine Or.inr ⟨urlencode F, if_neg hF, fun c hc => ?_⟩
      have hf := mem_urlencode_facts hc
      exact ⟨hf.2, hf.1⟩
  have hpass2 := normalize_eval s (stripWww h) (rstripSlash p)
    (if F = [] then [] else '?' :: urlencode F) hsne hs hh2 hp2 hpc2 hqp2
  have hpw : List.Pairwise (fun g1 g2 => g1.1 ≠ g2.1) F :=
    List.Pairwise.sublist (filterTracking_sublist _)
      (foldl_addToGroups_pairwise (parse_qsl (pyLower qp).tail) [] (by simp))
  have hne2 : ∀ g ∈ F, g.2 ≠ [] := fun g hg =>
    foldl_addToGroups_values_ne (parse_qsl (pyLower qp).tail) [] (by simp) g
      ((filterTracking_sublist _).subset hg)
  have hch2 : ∀ g ∈ F, (∀ c ∈ g.1, c.toNat < 128 ∧ Char.toLower c = c)
      ∧ ∀ w ∈ g.2, (∀ c ∈ w, c.toNat < 128 ∧ Char.toLower c = c) ∧ w ≠ [] :=
    fun g hg =>
      foldl_addToGroups_charset
        (fun k => ∀ c ∈ k, c.toNat < 128 ∧ Char.toLower c = c)
        (fun w => (∀ c ∈ w, c.toNat < 128 ∧ Char.toLower c = c) ∧ w ≠ [])
        (parse_qsl (pyLower qp).tail) []
        (fun kv hkv => ⟨(parse_qsl_wf hQ0 kv hkv).1,
          (parse_qsl_wf hQ0 kv hkv).2.1, (parse_qsl_wf hQ0 kv hkv).2.2⟩)
        (by simp)
        g ((filterTracking_sublist _).subset hg)
  have hF2 : filterTracking
      (parse_qs (pyLower (if F = [] then [] else '?' :: urlencode F)).tail) = F := by
    by_cases hF : F = []
    · rw [if_pos hF, hF]
      rfl
    · rw [if_neg hF]
      have hstep : pyLower ('?' :: urlencode F) = '?' :: pyLower (urlencode F) := by
        show Char.toLower '?' :: pyLower (urlencode F) = _
        rw [show Char.toLower '?' = '?' from by decide]
      rw [hstep]
      show filterTracking (parse_qs (pyLower (urlencode F))) = F
      rw [parse_qs_pyLower_urlencode F hpw hne2 hch2, hFdef, filterTracking_idem]
  have hshape : s ++ "://".data ++ stripWww h ++ rstripSlash p
        ++ (if F = [] then [] else '?' :: urlencode F)
      = s ++ ':' :: '/' :: '/' :: (stripWww h ++ rstripSlash p
        ++ (if F = [] then [] else '?' :: urlencode F)) := by
    simp only [List.append_assoc]
    rfl
  refine ⟨_, hpass1, ?_⟩
  rw [hshape, hpass2, hF2, stripWww_of_not hw, rstripSlash_idem, hshape]

/-- Witness for C7 amended: the well-formed URL
"https://www.example.com/path/?b=2&utm_source=x&a=1" has a normal form that
`normalize_url` maps to itself. -/
theorem normalize_url_idempotent_on_wf_witness :
    ∃ v, normalize_url (String.mk ("https".data ++ ':' :: '/' :: '/'
        :: ("www.example.com".data ++ "/path/".data
          ++ ('?' :: "b=2&utm_source=x&a=1".data)))) = Except.ok v
      ∧ normalize_url v = Except.ok v :=
  normalize_url_idempotent_on_wf "https".data "www.example.com".data "/path/".data
    ('?' :: "b=2&utm_source=x&a=1".data)
    (by decide) (by decide) (by decide) (by decide)
    (Or.inr (by decide)) (by decide)
    (Or.inr ⟨"b=2&utm_source=x&a=1".data, rfl, by decide⟩)

lemma filter_addToGroups (P : List Char → Bool)
    (acc : List (List Char × List (List Char))) (k : List Char) (v : List Char) :
    (addToGroups acc k v).filter (fun g => P g.1)
      = if P k then addToGroups (acc.filter (fun g => P g.1)) k v
        else acc.filter (fun g => P g.1) := by
  induction acc with
  | nil =>
    show [(k, [v])].filter (fun g => P g.1) = _
    by_cases hk : P k
    · rw [if_pos hk]
      simp [List.filter, hk, addToGroups]
    · rw [if_neg hk]
      simp [List.filter, hk]
  | cons g rest ih =>
    show (if g.1 = k then (g.1, g.2 ++ [v]) :: rest
        else g :: addToGroups rest k v).filter (fun g => P g.1) = _
    by_cases hg : g.1 = k
    · rw [if_pos hg]
      by_cases hk : P k
      · rw [if_pos hk]
        rw [List.filter_cons, List.filter_cons]
        simp only [hg, hk, if_pos]
        show (k, g.2 ++ [v]) :: rest.filter (fun g => P g.1)
          = if g.1 = k then (g.1, g.2 ++ [v]) :: rest.filter (fun g => P g.1)
            else g :: addToGroups (rest.filter (fun g => P g.1)) k v
        rw [if_pos hg, hg]
      · rw [if_neg hk]
        rw [List.filter_cons, List.filter_cons]
        simp only [hg, hk, if_neg, Bool.false_eq_true, not_false_eq_true, if_false]
    · rw [if_neg hg]
      rw [List.filter_cons, List.filter_cons]
      by_cases hPg : P g.1
      · simp only [hPg, if_pos, ih]
        by_cases hk : P k
        · rw [if_pos hk, if_pos hk]
          show g :: addToGroups (rest.filter (fun g => P g.1)) k v
            = if g.1 = k then _ else g :: addToGroups (rest.filter (fun g => P g.1)) k v
          rw [if_neg hg]
        · rw [if_neg hk, if_neg hk]
      · simp only [hPg, Bool.false_eq_true, if_false, ih]

lemma filter_foldl_addToGroups (P : List Char → Bool)
    (pairs : List (List Char × List Char)) :
    ∀ acc : List (List Char × List (List Char)),
    (pairs.foldl (fun a kv => addToGroups a kv.1 kv.2) acc).filter (fun g => P g.1)
      = (pairs.filter (fun kv => P kv.1)).foldl (fun a kv => addToGroups a kv.1 kv.2)
          (acc.filter (fun g => P g.1)) := by
  induction pairs with
  | nil => intro acc; rfl
  | cons kv rest ih =>
    intro acc
    show ((rest.foldl _ (addToGroups acc kv.1 kv.2)).filter (fun g => P g.1)) = _
    rw [ih, filter_addToGroups, List.filter_cons]
    by_cases hk : P kv.1
    · rw [if_pos hk]
      simp only [hk, if_pos]
      rfl
    · rw [if_neg hk]
      simp only [hk, Bool.false_eq_true, if_false]

/-- C9 amended: the tracking filter drops exactly the query parameters
whose lowered name is in the fixed 12-name denylist
{utm_source, utm_medium, utm_campaign, utm_term, utm_content, fbclid,
gclid, ref, s, t, si, igshid} — an explicit set, not a `utm_*` wildcard,
so e.g. `utm_id` survives — and the survivors are the `parse_qs` GROUPS
of the non-denylisted pairs: keys in order of first surviving occurrence,
each key's values in their original relative order (repeated keys are
pulled together, so the original pairwise order is not preserved in
general).  The spec's concrete instance does hold. -/
theorem tracking_removal_exact :
    (∀ q : List Char, filterTracking (parse_qs q)
        = ((parse_qsl q).filter
            (fun kv => !trackingParams.contains (pyLower kv.1))).foldl
            (fun a kv => addToGroups a kv.1 kv.2) [])
  ∧ (∀ q : List Char, ∀ g, g ∈ filterTracking (parse_qs q)
        ↔ g ∈ parse_qs q ∧ pyLower g.1 ∉ trackingParams)
  ∧ normalize_url "https://x.com/a?utm_source=y&id=1"
      = normalize_url "https://x.com/a?id=1" := by
  refine ⟨?_, ?_, by decide⟩
  · intro q
    exact filter_foldl_addToGroups (fun k => !trackingParams.contains (pyLower k))
      (parse_qsl q) []
  · intro q g
    unfold filterTracking
    rw [List.mem_filter]
    constructor
    · rintro ⟨h1, h2⟩
      refine ⟨h1, fun hmem => ?_⟩
      rw [Bool.not_eq_true'] at h2
      refine absurd (List.elem_iff.2 hmem) ?_
      show ¬ trackingParams.contains (pyLower g.1) = true
      rw [h2]
      exact Bool.false_ne_true
    · rintro ⟨h1, h2⟩
      refine ⟨h1, ?_⟩
      rw [Bool.not_eq_true']
      by_contra hcon
      have : trackingParams.contains (pyLower g.1) = true := by
        revert hcon
        cases trackingParams.contains (pyLower g.1) <;> simp
      exact h2 (List.elem_iff.1 this)

lemma mem_pyStrip {l : List Char} {c : Char} (hc : c ∈ pyStrip l) : c ∈ l := by
  unfold pyStrip at hc
  rw [List.mem_reverse] at hc
  have h1 := (List.dropWhile_suffix isPySpaceChar).sublist.subset hc
  rw [List.mem_reverse] at h1
  exact (List.dropWhile_suffix isPySpaceChar).sublist.subset h1

lemma mem_urlsplitClean {l : List Char} {c : Char} (hc : c ∈ urlsplitClean l) :
    c ∈ l := by
  unfold urlsplitClean at hc
  have h0 := (List.filter_sublist _).subset hc
  rw [List.mem_reverse] at h0
  have h1 := (List.dropWhile_suffix isC0OrSpace).sublist.subset h0
  rw [List.mem_reverse] at h1
  exact (List.dropWhile_suffix isC0OrSpace).sublist.subset h1

lemma mem_splitScheme_snd {u : List Char} {c : Char}
    (hc : c ∈ (splitScheme u).2) : c ∈ u := by
  unfold splitScheme at hc
  cases hf : pyFindIdx (fun c => c = ':') u with
  | none =>
    rw [hf] at hc
    exact hc
  | some i =>
    rw [hf] at hc
    dsimp only at hc
    split_ifs at hc
    · exact (List.drop_sublist (i + 1) u).subset hc
    · exact hc

/-- On an input free of square brackets, `urlsplit` reaches neither of its
two raise sites (both live under a bracket-containing authority), so it
returns a result. -/
lemma urlsplitE_ok_of_no_brackets {u : List Char}
    (h : ∀ c ∈ u, c ≠ '[' ∧ c ≠ ']') :
    ∃ r, urlsplitE u = Except.ok r := by
  have hsub : ∀ c ∈ (((splitScheme (urlsplitClean u)).2).drop 2).takeWhile
      (fun c => !isNetlocEnd c), c ≠ '[' ∧ c ≠ ']' := by
    intro c hc
    exact h c (mem_urlsplitClean (mem_splitScheme_snd
      ((List.drop_sublist 2 _).subset ((List.takeWhile_prefix _).sublist.subset hc))))
  have hcb1 : ((((splitScheme (urlsplitClean u)).2).drop 2).takeWhile
      (fun c => !isNetlocEnd c)).contains '[' = false :=
    contains_eq_false_of_all (fun d hd => (hsub d hd).1)
  have hcb2 : ((((splitScheme (urlsplitClean u)).2).drop 2).takeWhile
      (fun c => !isNetlocEnd c)).contains ']' = false :=
    contains_eq_false_of_all (fun d hd => (hsub d hd).2)
  unfold urlsplitE
  by_cases htake : ((splitScheme (urlsplitClean u)).2).take 2 = ['/', '/']
  · rw [if_pos htake,
      if_neg (by unfold bracketMismatch; rw [hcb1, hcb2]; simp),
      if_neg (by rw [hcb1]; simp)]
    exact ⟨_, rfl⟩
  · rw [if_neg htake]
    exact ⟨_, rfl⟩

/-- C8 amended: `normalize_url` (which has no try/except) raises exactly
where `urlsplit`'s authority validation raises, and both raise sites
require a square bracket in an authority (one-sided brackets give
`ValueError("Invalid IPv6 URL")`; on CPython >= 3.11.4 a matched bracket
pair whose content is not a valid IPv6 or IPvFuture literal raises from
`_check_bracketed_host`, with IPv4 content rejected as such) or — on
CPython >= 3.7.3 — a non-ASCII authority (the NFKC check).  Hence on every
input made of ASCII characters with no `[` and no `]`, `normalize_url`
never raises and returns a best-effort reassembled string; and the
bracketed inputs "http://[abc]" and "http://[1.2.3.4]" raise the two new
errors while the valid literal "http://[::1]/a" still parses. -/
theorem normalize_url_ok_on_ascii_bracketfree :
    (∀ u : String, (∀ c ∈ u.data, c.toNat < 128 ∧ c ≠ '[' ∧ c ≠ ']') →
      (normalize_url u).isOk = true)
  ∧ normalize_url "http://[abc]"
      = .error (String.mk (pyReprSimple "abc".data
          ++ " does not appear to be an IPv4 or IPv6 address".data))
  ∧ normalize_url "http://[1.2.3.4]" = .error "An IPv4 address cannot be in brackets"
  ∧ (normalize_url "http://[::1]/a").isOk = true := by
  refine ⟨?_, by decide, by decide, by decide⟩
  intro u hu
  have hpl : ∀ c ∈ pyStrip (pyLower u.data), c ≠ '[' ∧ c ≠ ']' := by
    intro c hc
    rcases List.mem_map.1 (mem_pyStrip hc) with ⟨d, hd, rfl⟩
    obtain ⟨-, hd2, hd3⟩ := hu d hd
    exact ⟨toLower_ne_low (by decide) hd2, toLower_ne_low (by decide) hd3⟩
  obtain ⟨r, hr⟩ := urlsplitE_ok_of_no_brackets hpl
  unfold normalize_url urlparseE
  rw [hr]
  dsimp only
  split_ifs <;> rfl

/-- Witness for C8 amended: the ASCII, bracket-free (and otherwise
unremarkable) input "http://x.com/a?b=1" satisfies the hypotheses and
normalizes without raising. -/
theorem normalize_url_ok_on_ascii_bracketfree_witness :
    (normalize_url "http://x.com/a?b=1").isOk = true :=
  normalize_url_ok_on_ascii_bracketfree.1 "http://x.com/a?b=1" (by decide)

end TodoSpec
